import Mathlib

/-!
Verification development for the gecko repository.

The consensus core (Snowman decision engine) is specified in `spec.md`
(sections 3, 4, 6, 7, 8); its implementation is not among the provided
source files, so the engine below is modelled from the spec.  The
`secp256k1fx.TransferOutput` functions and the platformvm
`Service.SampleValidators` handler are embedded from their Go sources.
-/

namespace Gecko

/-! ## Status of a block, from the spec data model (§3). -/

/-- Status of a block: Processing, Accepted or Rejected (spec §3). -/
inductive BStatus where
  | Processing : BStatus
  | Accepted : BStatus
  | Rejected : BStatus
deriving DecidableEq, Repr

/-- Modelled from the spec: an AncestryNode (spec §3) — parent identity
(`none` only for genesis), height (parent height + 1, genesis 0), status,
and the embedded snowball state (confidence, numSuccesses,
lastPollPreference).  Identities are modelled as naturals. -/
structure ANode where
  parent : Option Nat
  height : Nat
  status : BStatus
  confidence : Nat
  numSuccesses : Nat
  lastPollPreference : Option Nat
deriving DecidableEq, Repr

/-- Modelled from the spec: the engine state — the ancestry store as an
association list from identity to AncestryNode, plus the accepted
frontier pointer (spec §3 Frontier). -/
structure EState where
  nodes : List (Nat × ANode)
  lastAccepted : Nat
deriving DecidableEq, Repr

/-- Modelled from the spec: consensus parameters K, Alpha, Beta (spec §4.3),
fixed for the lifetime of the engine. -/
structure Params where
  K : Nat
  Alpha : Nat
  Beta : Nat
deriving DecidableEq, Repr

/-- Lookup in an association list: first entry with the given key. -/
def getN (l : List (Nat × ANode)) (i : Nat) : Option ANode :=
  match l with
  | [] => none
  | e :: r => if e.1 = i then some e.2 else getN r i

/-- Apply a key-dependent node transformation to every entry. -/
def mapN (l : List (Nat × ANode)) (g : Nat → ANode → ANode) :
    List (Nat × ANode) :=
  l.map (fun e => (e.1, g e.1 e.2))

/-- Update every entry with the given key by `f`, keeping keys unchanged. -/
def setN (l : List (Nat × ANode)) (i : Nat) (f : ANode → ANode) :
    List (Nat × ANode) :=
  mapN l (fun j nd => if j = i then f nd else nd)

/-- Status query, `none` meaning Unknown (spec §4.1 `Status`). -/
def statusOf (s : EState) (i : Nat) : Option BStatus :=
  (getN s.nodes i).map (·.status)

/-- Membership of the conflict set under parent `p`: the identities of all
nodes whose parent is `p` (spec §3 ConflictSet, §4.2). -/
def childIds (s : EState) (p : Nat) : List Nat :=
  (s.nodes.filter (fun e => e.2.parent = some p)).map (·.1)

/-- Votes a tally assigns to a candidate (0 when absent). -/
def tallyGet (t : List (Nat × Nat)) (c : Nat) : Nat :=
  match t with
  | [] => 0
  | e :: r => if e.1 = c then e.2 else tallyGet r c

/-- Ancestor chain of `i` (self first), following parent links with
explicit fuel.  Fuel `n` follows at most `n` parent steps. -/
def upChainF (s : EState) : Nat → Nat → List Nat
  | 0, i => [i]
  | n + 1, i =>
    i :: (match getN s.nodes i with
      | some nd =>
        match nd.parent with
        | some p => upChainF s n p
        | none => []
      | none => [])

/-- Ancestor chain of `i` including `i` itself, with fuel large enough for
any well-formed state (every height is below the node count). -/
def upChain (s : EState) (i : Nat) : List Nat :=
  upChainF s s.nodes.length i

/-- Modelled from the spec: the genesis AncestryNode, pre-marked Accepted,
with no parent (spec §6 Bootstrapper; `ids_test.go` `Genesis`). -/
def genesisNode : ANode :=
  { parent := none, height := 0, status := .Accepted, confidence := 0,
    numSuccesses := 0, lastPollPreference := none }

/-- Modelled from the spec: the bootstrapped engine state — exactly the
genesis node, which is also the accepted frontier (spec §6). -/
def initState : EState :=
  { nodes := [(0, genesisNode)], lastAccepted := 0 }

/-! ## Add (spec §4.1) -/

/-- Error outcomes of `Add` (spec §7). -/
inductive AddErr where
  | UnknownParent : AddErr
  | AlreadyAdded : AddErr
deriving DecidableEq, Repr

/-- Candidate block handed to `Add`: identity and parent identity. -/
structure Blk where
  id : Nat
  parent : Nat
deriving DecidableEq, Repr

/-- Modelled from the spec: `Add(block)` (spec §4.1) — fails with
`AlreadyAdded` if the identity exists, with `UnknownParent` if the parent
is not a known Processing or Accepted block; on success creates a
Processing node with empty snowball state as a child of its parent.  The
returned state is the engine state after the call (unchanged on error). -/
def addBlock (s : EState) (b : Blk) : Option AddErr × EState :=
  if (getN s.nodes b.id).isSome then (some .AlreadyAdded, s)
  else
    match getN s.nodes b.parent with
    | none => (some .UnknownParent, s)
    | some pnd =>
      if pnd.status = .Rejected then (some .UnknownParent, s)
      else
        (none,
          { s with nodes := s.nodes ++
              [(b.id,
                { parent := some b.parent, height := pnd.height + 1,
                  status := .Processing, confidence := 0, numSuccesses := 0,
                  lastPollPreference := none })] })

/-! ## RecordVotes (spec §4.3, §4.4) -/

/-- Error outcome of `RecordVotes` (spec §4.4, §7). -/
inductive RVErr where
  | UnknownCandidate : RVErr
deriving DecidableEq, Repr

/-- Processing test as a Boolean (decided and unknown candidates are
ignored by winner selection, spec §4.4). -/
def isProcessingB (s : EState) (c : Nat) : Bool :=
  match getN s.nodes c with
  | some nd => nd.status = .Processing
  | none => false

/-- Winner of a poll round at one conflict set: the member that is still
Processing and received at least Alpha votes; `none` when no candidate
reaches Alpha (spec §4.3). -/
def findWinner (pr : Params) (s : EState) (t : List (Nat × Nat))
    (members : List Nat) : Option Nat :=
  members.find? (fun c => isProcessingB s c && pr.Alpha ≤ tallyGet t c)

/-- Modelled from the spec: the acceptance cascade (spec §4.3) — `w`
transitions to Accepted, every sibling of `w` in the conflict set under
`p` and every descendant of such a sibling transitions to Rejected, and
the accepted frontier advances to `w`. -/
def acceptCascade (s : EState) (w p : Nat) : EState :=
  let sibs := (childIds s p).filter (fun c => c ≠ w)
  { nodes := mapN s.nodes (fun i nd =>
      if i = w then { nd with status := .Accepted }
      else if sibs.any (fun sb => sb ∈ upChain s i) then
        { nd with status := .Rejected }
      else nd),
    lastAccepted := w }

/-- Modelled from the spec: the round-processing rule for one conflict set
(spec §4.3).  When no member reaches Alpha the round is inconclusive and
nothing changes.  When the winner equals the parent's
`lastPollPreference`, confidence is incremented; once confidence reaches
Beta the winner is accepted — guarded, per invariant I2 and the
frontier-advance language of §4.3, by its parent being the accepted
frontier.  When the winner differs, the preference switches to it and its
confidence streak restarts at 1. -/
def processSet (pr : Params) (t : List (Nat × Nat)) (s : EState) (p : Nat) :
    EState :=
  match findWinner pr s t (childIds s p) with
  | none => s
  | some w =>
    match getN s.nodes p, getN s.nodes w with
    | some pnd, some wnd =>
      if pnd.lastPollPreference = some w then
        let s1 : EState :=
          { s with nodes := setN s.nodes w (fun nd =>
              { nd with confidence := wnd.confidence + 1,
                        numSuccesses := nd.numSuccesses + 1 }) }
        if pr.Beta ≤ wnd.confidence + 1 ∧ p = s.lastAccepted then
          acceptCascade s1 w p
        else s1
      else
        let s1 : EState :=
          { s with nodes := setN s.nodes w (fun nd =>
              { nd with confidence := 1,
                        numSuccesses := nd.numSuccesses + 1 }) }
        { s1 with nodes := setN s1.nodes p (fun nd =>
            { nd with lastPollPreference := some w }) }
    | _, _ => s

/-- Conflict sets referenced by a tally: the parents of the tallied
candidates that are still Processing, each taken once (spec §4.4). -/
def touched (s : EState) (t : List (Nat × Nat)) : List Nat :=
  (t.filterMap (fun e =>
    match getN s.nodes e.1 with
    | some nd => if nd.status = .Processing then nd.parent else none
    | none => none)).dedup

/-- Modelled from the spec: `RecordVotes(tally)` (spec §4.4) — fails with
`UnknownCandidate`, leaving the state unchanged, when some tallied
identity is unknown; otherwise applies the round-processing rule to every
conflict set referenced by the tally.  The returned state is the engine
state after the call. -/
def recordVotes (pr : Params) (s : EState) (t : List (Nat × Nat)) :
    Option RVErr × EState :=
  if t.any (fun e => (getN s.nodes e.1).isNone) then
    (some .UnknownCandidate, s)
  else
    (none, (touched s t).foldl (processSet pr t) s)

/-- Reachable engine states: the bootstrapped state, closed under `Add`
and `RecordVotes` (the state component of either call, so failed calls —
which leave the state unchanged — are covered too). -/
inductive Reachable (pr : Params) : EState → Prop where
  | init : Reachable pr initState
  | add (s : EState) (b : Blk) : Reachable pr s →
      Reachable pr (addBlock s b).2
  | vote (s : EState) (t : List (Nat × Nat)) : Reachable pr s →
      Reachable pr (recordVotes pr s t).2

/-- Parameters of the finalization-threshold scenario (spec §8). -/
def pr20 : Params := { K := 20, Alpha := 15, Beta := 5 }

/-! ## Association-list lemmas -/

theorem getN_mapN (l : List (Nat × ANode)) (g : Nat → ANode → ANode)
    (j : Nat) : getN (mapN l g) j = (getN l j).map (g j) := by
  induction l with
  | nil => rfl
  | cons e r ih =>
    by_cases h : e.1 = j
    · subst h; simp [getN, mapN]
    · simp only [mapN, List.map_cons] at ih ⊢
      simp [getN, h, ih]

theorem keys_mapN (l : List (Nat × ANode)) (g : Nat → ANode → ANode) :
    (mapN l g).map Prod.fst = l.map Prod.fst := by
  simp [mapN, List.map_map, Function.comp_def]

theorem length_mapN (l : List (Nat × ANode)) (g : Nat → ANode → ANode) :
    (mapN l g).length = l.length := by
  simp [mapN]

theorem getN_setN_self (l : List (Nat × ANode)) (i : Nat) (f : ANode → ANode) :
    getN (setN l i f) i = (getN l i).map f := by
  simp [setN, getN_mapN]

theorem getN_setN_ne (l : List (Nat × ANode)) (i : Nat) (f : ANode → ANode)
    (j : Nat) (h : j ≠ i) : getN (setN l i f) j = getN l j := by
  rw [setN, getN_mapN]
  cases getN l j <;> simp [h]

theorem keys_setN (l : List (Nat × ANode)) (i : Nat) (f : ANode → ANode) :
    (setN l i f).map Prod.fst = l.map Prod.fst := by
  simp [setN, keys_mapN]

theorem length_setN (l : List (Nat × ANode)) (i : Nat) (f : ANode → ANode) :
    (setN l i f).length = l.length := by
  simp [setN, length_mapN]

theorem getN_append_left (l l2 : List (Nat × ANode)) (j : Nat) (v : ANode)
    (h : getN l j = some v) : getN (l ++ l2) j = some v := by
  induction l with
  | nil => simp [getN] at h
  | cons e r ih =>
    by_cases he : e.1 = j
    · simp [getN, he] at h ⊢; exact h
    · simp [getN, he] at h ⊢; exact ih h

theorem getN_append_none (l l2 : List (Nat × ANode)) (j : Nat)
    (h : getN l j = none) : getN (l ++ l2) j = getN l2 j := by
  induction l with
  | nil => rfl
  | cons e r ih =>
    by_cases he : e.1 = j
    · simp [getN, he] at h
    · simp [getN, he] at h ⊢; exact ih h

theorem getN_eq_none_iff (l : List (Nat × ANode)) (i : Nat) :
    getN l i = none ↔ i ∉ l.map Prod.fst := by
  induction l with
  | nil => simp [getN]
  | cons e r ih =>
    by_cases he : e.1 = i
    · simp [getN, he]
    · simp [getN, he, ih, Ne.symm he]

theorem mem_of_getN (l : List (Nat × ANode)) (i : Nat) (nd : ANode)
    (h : getN l i = some nd) : (i, nd) ∈ l := by
  induction l with
  | nil => simp [getN] at h
  | cons e r ih =>
    obtain ⟨k, v⟩ := e
    by_cases he : k = i
    · subst he
      simp [getN] at h
      subst h
      exact List.mem_cons_self _ _
    · simp [getN, he] at h
      exact List.mem_cons_of_mem _ (ih h)

theorem getN_of_mem (l : List (Nat × ANode)) (i : Nat) (nd : ANode)
    (hnd : (l.map Prod.fst).Nodup) (h : (i, nd) ∈ l) : getN l i = some nd := by
  induction l with
  | nil => simp at h
  | cons e r ih =>
    obtain ⟨k, v⟩ := e
    simp only [List.map_cons, List.nodup_cons] at hnd
    rcases List.mem_cons.mp h with h1 | h1
    · rw [Prod.mk.injEq] at h1
      obtain ⟨hk, hv⟩ := h1
      subst hk; subst hv
      simp [getN]
    · have hmem : i ∈ r.map Prod.fst := List.mem_map_of_mem Prod.fst h1
      have hk : k ≠ i := fun hc => hnd.1 (hc ▸ hmem)
      simp [getN, hk]
      exact ih hnd.2 h1

theorem mem_childIds (s : EState) (p i : Nat) :
    i ∈ childIds s p ↔ ∃ nd, (i, nd) ∈ s.nodes ∧ nd.parent = some p := by
  constructor
  · intro h
    simp [childIds] at h
    rcases h with ⟨nd, hmem, hpar⟩
    exact ⟨nd, hmem, hpar⟩
  · intro ⟨nd, hmem, hpar⟩
    simp [childIds]
    exact ⟨nd, hmem, hpar⟩

/-! ## Well-formedness predicates and chain lemmas -/

/-- Parent links point to existing nodes one height down (spec §3). -/
def ParentMem (s : EState) : Prop :=
  ∀ i nd p, getN s.nodes i = some nd → nd.parent = some p →
    ∃ pnd, getN s.nodes p = some pnd ∧ nd.height = pnd.height + 1

/-- Every height is below the number of stored nodes. -/
def HeightLt (s : EState) : Prop :=
  ∀ i nd, getN s.nodes i = some nd → nd.height < s.nodes.length

theorem upChainF_head (s : EState) (f i : Nat) : i ∈ upChainF s f i := by
  cases f <;> simp [upChainF]

theorem upChainF_of_none (s : EState) (i : Nat) (hs : getN s.nodes i = none) :
    ∀ f, upChainF s f i = [i] := by
  intro f
  cases f <;> simp [upChainF, hs]

theorem upChainF_of_root (s : EState) (i : Nat) (nd : ANode)
    (hs : getN s.nodes i = some nd) (hp : nd.parent = none) :
    ∀ f, upChainF s f i = [i] := by
  intro f
  cases f <;> simp [upChainF, hs, hp]

theorem upChainF_succ (s : EState) (f i p : Nat) (nd : ANode)
    (hs : getN s.nodes i = some nd) (hp : nd.parent = some p) :
    upChainF s (f + 1) i = i :: upChainF s f p := by
  simp [upChainF, hs, hp]

theorem upChainF_stable (s : EState) (pm : ParentMem s) :
    ∀ (h f i : Nat) (nd : ANode), getN s.nodes i = some nd → nd.height ≤ h →
      nd.height ≤ f → upChainF s f i = upChainF s nd.height i := by
  intro h
  induction h with
  | zero =>
    intro f i nd hs hh _
    cases hp : nd.parent with
    | none => rw [upChainF_of_root s i nd hs hp, upChainF_of_root s i nd hs hp]
    | some p =>
      obtain ⟨pnd, _, hht⟩ := pm i nd p hs hp
      omega
  | succ h ih =>
    intro f i nd hs hh hf
    cases hp : nd.parent with
    | none => rw [upChainF_of_root s i nd hs hp, upChainF_of_root s i nd hs hp]
    | some p =>
      obtain ⟨pnd, hps, hht⟩ := pm i nd p hs hp
      obtain ⟨f', rfl⟩ : ∃ f', f = f' + 1 := ⟨f - 1, by omega⟩
      rw [upChainF_succ s f' i p nd hs hp, hht,
        upChainF_succ s pnd.height i p nd hs hp]
      rw [ih f' p pnd hps (by omega) (by omega)]

theorem upChainF_mono (s : EState) :
    ∀ (f f' i j : Nat), f ≤ f' → j ∈ upChainF s f i → j ∈ upChainF s f' i := by
  intro f
  induction f with
  | zero =>
    intro f' i j _ hj
    simp [upChainF] at hj
    subst hj
    exact upChainF_head s f' j
  | succ f ih =>
    intro f' i j hle hj
    obtain ⟨f'', rfl⟩ : ∃ f'', f' = f'' + 1 := ⟨f' - 1, by omega⟩
    cases hs : getN s.nodes i with
    | none =>
      rw [upChainF_of_none s i hs] at hj
      simp at hj
      subst hj
      exact upChainF_head s _ j
    | some nd =>
      cases hp : nd.parent with
      | none =>
        rw [upChainF_of_root s i nd hs hp] at hj
        simp at hj
        subst hj
        exact upChainF_head s _ j
      | some p =>
        rw [upChainF_succ s f i p nd hs hp] at hj
        rw [upChainF_succ s f'' i p nd hs hp]
        rcases List.mem_cons.mp hj with h1 | h1
        · exact h1 ▸ List.mem_cons_self _ _
        · exact List.mem_cons_of_mem _ (ih f'' p j (by omega) h1)

theorem mem_upChain_of_memF (s : EState) (pm : ParentMem s) (hl : HeightLt s)
    (f i j : Nat) (hj : j ∈ upChainF s f i) : j ∈ upChain s i := by
  cases hs : getN s.nodes i with
  | none =>
    rw [upChainF_of_none s i hs] at hj
    simp at hj
    subst hj
    exact upChainF_head s _ j
  | some nd =>
    by_cases hle : f ≤ s.nodes.length
    · exact upChainF_mono s f s.nodes.length i j hle hj
    · have hhl := hl i nd hs
      have h1 : upChainF s f i = upChainF s nd.height i :=
        upChainF_stable s pm f f i nd hs (by omega) (by omega)
      have h2 : upChain s i = upChainF s nd.height i :=
        upChainF_stable s pm s.nodes.length s.nodes.length i nd hs
          (by omega) (by omega)
      rw [h2, ← h1]
      exact hj

theorem upChain_head (s : EState) (i : Nat) : i ∈ upChain s i :=
  upChainF_head s _ i

theorem upChain_cons (s : EState) (pm : ParentMem s) (hl : HeightLt s)
    (i p : Nat) (nd : ANode) (hs : getN s.nodes i = some nd)
    (hp : nd.parent = some p) : upChain s i = i :: upChain s p := by
  obtain ⟨pnd, hps, hht⟩ := pm i nd p hs hp
  have hlen : s.nodes.length = (s.nodes.length - 1) + 1 := by
    have := hl i nd hs
    omega
  rw [upChain, hlen, upChainF_succ s _ i p nd hs hp]
  have h1 : upChainF s (s.nodes.length - 1) p = upChainF s pnd.height p :=
    upChainF_stable s pm (s.nodes.length - 1) _ p pnd hps
      (by have := hl i nd hs; omega) (by have := hl i nd hs; omega)
  have h2 : upChain s p = upChainF s pnd.height p :=
    upChainF_stable s pm s.nodes.length _ p pnd hps
      (le_of_lt (hl p pnd hps)) (le_of_lt (hl p pnd hps))
  rw [h1, ← h2]

theorem mem_upChainF_height (s : EState) (pm : ParentMem s) :
    ∀ (f i : Nat) (nd : ANode) (j : Nat), getN s.nodes i = some nd →
      j ∈ upChainF s f i →
      j = i ∨ ∃ ndj, getN s.nodes j = some ndj ∧ ndj.height < nd.height := by
  intro f
  induction f with
  | zero =>
    intro i nd j _ hj
    simp [upChainF] at hj
    exact Or.inl hj
  | succ f ih =>
    intro i nd j hs hj
    cases hp : nd.parent with
    | none =>
      rw [upChainF_of_root s i nd hs hp] at hj
      simp at hj
      exact Or.inl hj
    | some p =>
      rw [upChainF_succ s f i p nd hs hp] at hj
      rcases List.mem_cons.mp hj with h1 | h1
      · exact Or.inl h1
      · obtain ⟨pnd, hps, hht⟩ := pm i nd p hs hp
        rcases ih p pnd j hps h1 with h2 | ⟨ndj, hjs, hlt⟩
        · exact Or.inr ⟨pnd, h2 ▸ hps, by omega⟩
        · exact Or.inr ⟨ndj, hjs, by omega⟩

theorem mem_upChainF_isSome (s : EState) (pm : ParentMem s)
    (f i : Nat) (nd : ANode) (j : Nat) (hs : getN s.nodes i = some nd)
    (hj : j ∈ upChainF s f i) : ∃ ndj, getN s.nodes j = some ndj := by
  rcases mem_upChainF_height s pm f i nd j hs hj with h1 | ⟨ndj, hjs, _⟩
  · exact h1 ▸ ⟨nd, hs⟩
  · exact ⟨ndj, hjs⟩

theorem upChain_trans (s : EState) (pm : ParentMem s) (hl : HeightLt s) :
    ∀ (f i j k : Nat), j ∈ upChainF s f i → k ∈ upChain s j →
      k ∈ upChain s i := by
  intro f
  induction f with
  | zero =>
    intro i j k hj hk
    simp [upChainF] at hj
    exact hj ▸ hk
  | succ f ih =>
    intro i j k hj hk
    cases hs : getN s.nodes i with
    | none =>
      rw [upChainF_of_none s i hs] at hj
      simp at hj
      exact hj ▸ hk
    | some nd =>
      cases hp : nd.parent with
      | none =>
        rw [upChainF_of_root s i nd hs hp] at hj
        simp at hj
        exact hj ▸ hk
      | some p =>
        rw [upChainF_succ s f i p nd hs hp] at hj
        rcases List.mem_cons.mp hj with h1 | h1
        · exact h1 ▸ hk
        · rw [upChain_cons s pm hl i p nd hs hp]
          exact List.mem_cons_of_mem _ (ih p j k h1 hk)

theorem upChain_linear (s : EState) (pm : ParentMem s) (hl : HeightLt s) :
    ∀ (f a j k : Nat), j ∈ upChainF s f a → k ∈ upChainF s f a →
      j ∈ upChain s k ∨ k ∈ upChain s j := by
  intro f
  induction f with
  | zero =>
    intro a j k hj hk
    simp [upChainF] at hj hk
    subst hj; subst hk
    exact Or.inl (upChain_head s k)
  | succ f ih =>
    intro a j k hj hk
    by_cases hja : j = a
    · subst hja
      exact Or.inr (mem_upChain_of_memF s pm hl (f + 1) j k hk)
    · by_cases hka : k = a
      · subst hka
        exact Or.inl (mem_upChain_of_memF s pm hl (f + 1) k j hj)
      · cases hs : getN s.nodes a with
        | none =>
          rw [upChainF_of_none s a hs] at hj
          simp at hj
          exact absurd hj hja
        | some nd =>
          cases hp : nd.parent with
          | none =>
            rw [upChainF_of_root s a nd hs hp] at hj
            simp at hj
            exact absurd hj hja
          | some p =>
            rw [upChainF_succ s f a p nd hs hp] at hj hk
            rcases List.mem_cons.mp hj with h1 | h1
            · exact absurd h1 hja
            rcases List.mem_cons.mp hk with h2 | h2
            · exact absurd h2 hka
            exact ih p j k h1 h2

theorem upChainF_congr (s s' : EState)
    (h : ∀ i, (getN s'.nodes i).map (·.parent) =
      (getN s.nodes i).map (·.parent)) :
    ∀ (f i : Nat), upChainF s' f i = upChainF s f i := by
  intro f
  induction f with
  | zero => intro i; rfl
  | succ f ih =>
    intro i
    have hi := h i
    cases hs : getN s.nodes i with
    | none =>
      have hs' : getN s'.nodes i = none := by
        cases hx : getN s'.nodes i with
        | none => rfl
        | some nd' => rw [hx, hs] at hi; simp at hi
      rw [upChainF_of_none s i hs, upChainF_of_none s' i hs']
    | some nd =>
      cases hs' : getN s'.nodes i with
      | none => rw [hs, hs'] at hi; simp at hi
      | some nd' =>
        have hpp : nd'.parent = nd.parent := by
          rw [hs, hs'] at hi
          simpa using hi
        cases hp : nd.parent with
        | none =>
          rw [upChainF_of_root s i nd hs hp,
            upChainF_of_root s' i nd' hs' (hpp.trans hp)]
        | some p =>
          rw [upChainF_succ s f i p nd hs hp,
            upChainF_succ s' f i p nd' hs' (hpp.trans hp), ih p]

/-! ## The inductive invariant (spec §3 I1–I5, §8 Safety) -/

/-- The engine invariant: well-formed ancestry (unique keys, parents
present one height down, genesis the unique root, heights bounded),
acceptance closed under parents (I2), the frontier Accepted, and every
Accepted block on the frontier's ancestor chain. -/
structure Inv (s : EState) : Prop where
  nodup : (s.nodes.map Prod.fst).Nodup
  genesis : ∃ g, getN s.nodes 0 = some g ∧ g.parent = none ∧
    g.height = 0 ∧ g.status = BStatus.Accepted
  root_unique : ∀ i nd, getN s.nodes i = some nd → nd.parent = none → i = 0
  parent_mem : ParentMem s
  height_lt : HeightLt s
  acc_parent : ∀ i nd p, getN s.nodes i = some nd →
    nd.status = BStatus.Accepted → nd.parent = some p →
    ∃ pnd, getN s.nodes p = some pnd ∧ pnd.status = BStatus.Accepted
  last_acc : ∃ lnd, getN s.nodes s.lastAccepted = some lnd ∧
    lnd.status = BStatus.Accepted
  acc_chain : ∀ i nd, getN s.nodes i = some nd →
    nd.status = BStatus.Accepted → i ∈ upChain s s.lastAccepted

/-- States that agree on everything the invariant mentions: keys,
parent/height/status of every node, and the frontier.  Snowball counters
and preferences may differ. -/
def SameCore (s s' : EState) : Prop :=
  s'.lastAccepted = s.lastAccepted ∧
  s'.nodes.map Prod.fst = s.nodes.map Prod.fst ∧
  ∀ i, (getN s'.nodes i).map (fun nd => (nd.parent, nd.height, nd.status)) =
    (getN s.nodes i).map (fun nd => (nd.parent, nd.height, nd.status))

theorem SameCore.length {s s' : EState} (h : SameCore s s') :
    s'.nodes.length = s.nodes.length := by
  have := congrArg List.length h.2.1
  simpa using this

theorem SameCore.parentView {s s' : EState} (h : SameCore s s') (i : Nat) :
    (getN s'.nodes i).map (·.parent) = (getN s.nodes i).map (·.parent) := by
  have h3 := h.2.2 i
  cases hs : getN s.nodes i with
  | none =>
    rw [hs] at h3
    simp at h3
    rw [h3]
  | some nd =>
    rw [hs] at h3
    cases hs' : getN s'.nodes i with
    | none => rw [hs'] at h3; simp at h3
    | some nd' =>
      rw [hs'] at h3
      simp at h3 ⊢
      exact h3.1

theorem SameCore.upChain_eq {s s' : EState} (h : SameCore s s') (i : Nat) :
    upChain s' i = upChain s i := by
  rw [upChain, upChain, h.length, upChainF_congr s s' h.parentView]

theorem SameCore.getN_some {s s' : EState} (h : SameCore s s') (i : Nat)
    (nd : ANode) (hs : getN s.nodes i = some nd) :
    ∃ nd', getN s'.nodes i = some nd' ∧ nd'.parent = nd.parent ∧
      nd'.height = nd.height ∧ nd'.status = nd.status := by
  have h3 := h.2.2 i
  rw [hs] at h3
  cases hs' : getN s'.nodes i with
  | none => rw [hs'] at h3; simp at h3
  | some nd' =>
    rw [hs'] at h3
    simp at h3
    exact ⟨nd', rfl, h3.1, h3.2.1, h3.2.2⟩

theorem SameCore.parentMem {s s' : EState} (h : SameCore s s')
    (pm : ParentMem s) : ParentMem s' := by
  intro i nd' p hs' hp'
  have h3 := h.2.2 i
  rw [hs'] at h3
  cases hs : getN s.nodes i with
  | none => rw [hs] at h3; simp at h3
  | some nd =>
    rw [hs] at h3
    simp at h3
    obtain ⟨pnd, hps, hht⟩ := pm i nd p hs (h3.1 ▸ hp')
    obtain ⟨pnd', hps', hpp', hph', _⟩ := h.getN_some p pnd hps
    exact ⟨pnd', hps', by omega⟩

theorem inv_of_sameCore {s s' : EState} (hinv : Inv s) (h : SameCore s s') :
    Inv s' := by
  refine ⟨h.2.1 ▸ hinv.nodup, ?_, ?_, h.parentMem hinv.parent_mem, ?_, ?_, ?_, ?_⟩
  · obtain ⟨g, hg, hgp, hgh, hgs⟩ := hinv.genesis
    obtain ⟨g', hg', hp', hh', hs'⟩ := h.getN_some 0 g hg
    exact ⟨g', hg', hp' ▸ hgp, hh' ▸ hgh, hs' ▸ hgs⟩
  · intro i nd' hs' hp'
    have h3 := h.2.2 i
    rw [hs'] at h3
    cases hs : getN s.nodes i with
    | none => rw [hs] at h3; simp at h3
    | some nd =>
      rw [hs] at h3
      simp at h3
      exact hinv.root_unique i nd hs (h3.1 ▸ hp')
  · intro i nd' hs'
    have h3 := h.2.2 i
    rw [hs'] at h3
    cases hs : getN s.nodes i with
    | none => rw [hs] at h3; simp at h3
    | some nd =>
      rw [hs] at h3
      simp at h3
      rw [h.length, h3.2.1]
      exact hinv.height_lt i nd hs
  · intro i nd' p hs' hst' hp'
    have h3 := h.2.2 i
    rw [hs'] at h3
    cases hs : getN s.nodes i with
    | none => rw [hs] at h3; simp at h3
    | some nd =>
      rw [hs] at h3
      simp at h3
      obtain ⟨pnd, hps, hpacc⟩ :=
        hinv.acc_parent i nd p hs (h3.2.2 ▸ hst') (h3.1 ▸ hp')
      obtain ⟨pnd', hps', _, _, hsst⟩ := h.getN_some p pnd hps
      exact ⟨pnd', hps', hsst ▸ hpacc⟩
  · obtain ⟨lnd, hls, hlacc⟩ := hinv.last_acc
    obtain ⟨lnd', hls', _, _, hst'⟩ := h.getN_some s.lastAccepted lnd hls
    exact ⟨lnd', h.1 ▸ hls', hst' ▸ hlacc⟩
  · intro i nd' hs' hst'
    have h3 := h.2.2 i
    rw [hs'] at h3
    cases hs : getN s.nodes i with
    | none => rw [hs] at h3; simp at h3
    | some nd =>
      rw [hs] at h3
      simp at h3
      rw [h.1, h.upChain_eq]
      exact hinv.acc_chain i nd hs (h3.2.2 ▸ hst')

/-- On the ancestor chain of an Accepted node every element is Accepted
(transitive form of I2). -/
theorem chain_accepted {s : EState} (hinv : Inv s) :
    ∀ (f i : Nat) (nd : ANode), getN s.nodes i = some nd →
      nd.status = BStatus.Accepted → ∀ j ∈ upChainF s f i,
      ∃ ndj, getN s.nodes j = some ndj ∧ ndj.status = BStatus.Accepted := by
  intro f
  induction f with
  | zero =>
    intro i nd hs hacc j hj
    simp [upChainF] at hj
    exact hj ▸ ⟨nd, hs, hacc⟩
  | succ f ih =>
    intro i nd hs hacc j hj
    cases hp : nd.parent with
    | none =>
      rw [upChainF_of_root s i nd hs hp] at hj
      simp at hj
      exact hj ▸ ⟨nd, hs, hacc⟩
    | some p =>
      rw [upChainF_succ s f i p nd hs hp] at hj
      rcases List.mem_cons.mp hj with h1 | h1
      · exact h1 ▸ ⟨nd, hs, hacc⟩
      · obtain ⟨pnd, hps, hpacc⟩ := hinv.acc_parent i nd p hs hacc hp
        exact ih p pnd hps hpacc j h1

/-- Genesis lies on every node's ancestor chain. -/
theorem genesis_mem_upChain {s : EState} (hinv : Inv s) :
    ∀ (h i : Nat) (nd : ANode), getN s.nodes i = some nd → nd.height ≤ h →
      0 ∈ upChain s i := by
  intro h
  induction h with
  | zero =>
    intro i nd hs hh
    cases hp : nd.parent with
    | none => exact hinv.root_unique i nd hs hp ▸ upChain_head s i
    | some p =>
      obtain ⟨pnd, _, hht⟩ := hinv.parent_mem i nd p hs hp
      omega
  | succ h ih =>
    intro i nd hs hh
    cases hp : nd.parent with
    | none => exact hinv.root_unique i nd hs hp ▸ upChain_head s i
    | some p =>
      obtain ⟨pnd, hps, hht⟩ := hinv.parent_mem i nd p hs hp
      rw [upChain_cons s hinv.parent_mem hinv.height_lt i p nd hs hp]
      exact List.mem_cons_of_mem _ (ih p pnd hps (by omega))

/-- Two Accepted members of one conflict set coincide: uniqueness inside
a conflict set (I3, spec §8 Safety). -/
theorem acc_unique {s : EState} (hinv : Inv s) (i j p : Nat)
    (ndi ndj : ANode) (hi : getN s.nodes i = some ndi)
    (hj : getN s.nodes j = some ndj) (hpi : ndi.parent = some p)
    (hpj : ndj.parent = some p) (hai : ndi.status = BStatus.Accepted)
    (haj : ndj.status = BStatus.Accepted) : i = j := by
  have hci := hinv.acc_chain i ndi hi hai
  have hcj := hinv.acc_chain j ndj hj haj
  obtain ⟨pnd, hps, hhti⟩ := hinv.parent_mem i ndi p hi hpi
  obtain ⟨pnd', hps', hhtj⟩ := hinv.parent_mem j ndj p hj hpj
  rw [hps] at hps'
  have hpnd : pnd' = pnd := by injection hps'.symm
  subst hpnd
  rcases upChain_linear s hinv.parent_mem hinv.height_lt
      s.nodes.length s.lastAccepted i j hci hcj with h1 | h1
  · rcases mem_upChainF_height s hinv.parent_mem s.nodes.length j ndj i
        hj h1 with h2 | ⟨ndi', hi', hlt⟩
    · exact h2
    · rw [hi] at hi'
      have : ndi' = ndi := (Option.some.inj hi').symm
      subst this
      omega
  · rcases mem_upChainF_height s hinv.parent_mem s.nodes.length i ndi j
        hi h1 with h2 | ⟨ndj', hj', hlt⟩
    · exact h2.symm
    · rw [hj] at hj'
      have : ndj' = ndj := (Option.some.inj hj').symm
      subst this
      omega

/-- The frontier has no Accepted child. -/
theorem no_accepted_child_of_frontier {s : EState} (hinv : Inv s) (c : Nat)
    (ndc : ANode) (hc : getN s.nodes c = some ndc)
    (hpc : ndc.parent = some s.lastAccepted)
    (hacc : ndc.status = BStatus.Accepted) : False := by
  have hcc := hinv.acc_chain c ndc hc hacc
  obtain ⟨lnd, hls, _⟩ := hinv.last_acc
  obtain ⟨pnd, hps, hht⟩ := hinv.parent_mem c ndc s.lastAccepted hc hpc
  rw [hls] at hps
  have : pnd = lnd := by injection hps.symm
  subst this
  rcases mem_upChainF_height s hinv.parent_mem s.nodes.length s.lastAccepted
      pnd c hls hcc with h1 | ⟨ndc', hc', hlt⟩
  · subst h1
    rw [hls] at hc
    have : ndc = pnd := (Option.some.inj hc).symm
    subst this
    omega
  · rw [hc] at hc'
    have : ndc' = ndc := (Option.some.inj hc').symm
    subst this
    omega

/-- States with identical keys and identical parent/height views; statuses
and snowball state may differ. -/
def SameShape (s s' : EState) : Prop :=
  s'.nodes.map Prod.fst = s.nodes.map Prod.fst ∧
  ∀ i, (getN s'.nodes i).map (fun nd => (nd.parent, nd.height)) =
    (getN s.nodes i).map (fun nd => (nd.parent, nd.height))

theorem SameShape.length_eq {s s' : EState} (h : SameShape s s') :
    s'.nodes.length = s.nodes.length := by
  have := congrArg List.length h.1
  simpa using this

theorem SameShape.parent_view {s s' : EState} (h : SameShape s s') (i : Nat) :
    (getN s'.nodes i).map (·.parent) = (getN s.nodes i).map (·.parent) := by
  have h3 := h.2 i
  cases hs : getN s.nodes i with
  | none =>
    rw [hs] at h3
    simp at h3
    rw [h3]
  | some nd =>
    rw [hs] at h3
    cases hs' : getN s'.nodes i with
    | none => rw [hs'] at h3; simp at h3
    | some nd' =>
      rw [hs'] at h3
      simp at h3 ⊢
      exact h3.1

theorem SameShape.upchain_eq {s s' : EState} (h : SameShape s s') (i : Nat) :
    upChain s' i = upChain s i := by
  rw [upChain, upChain, h.length_eq, upChainF_congr s s' h.parent_view]

theorem SameShape.getN_some_fwd {s s' : EState} (h : SameShape s s') (i : Nat)
    (nd : ANode) (hs : getN s.nodes i = some nd) :
    ∃ nd', getN s'.nodes i = some nd' ∧ nd'.parent = nd.parent ∧
      nd'.height = nd.height := by
  have h3 := h.2 i
  rw [hs] at h3
  cases hs' : getN s'.nodes i with
  | none => rw [hs'] at h3; simp at h3
  | some nd' =>
    rw [hs'] at h3
    simp at h3
    exact ⟨nd', rfl, h3.1, h3.2⟩

theorem SameShape.getN_some_rev {s s' : EState} (h : SameShape s s') (i : Nat)
    (nd' : ANode) (hs' : getN s'.nodes i = some nd') :
    ∃ nd, getN s.nodes i = some nd ∧ nd'.parent = nd.parent ∧
      nd'.height = nd.height := by
  have h3 := h.2 i
  rw [hs'] at h3
  cases hs : getN s.nodes i with
  | none => rw [hs] at h3; simp at h3
  | some nd =>
    rw [hs] at h3
    simp at h3
    exact ⟨nd, rfl, h3.1, h3.2⟩

theorem SameShape.parentMemOf {s s' : EState} (h : SameShape s s')
    (pm : ParentMem s) : ParentMem s' := by
  intro i nd' p hs' hp'
  obtain ⟨nd, hs, hpp, hph⟩ := h.getN_some_rev i nd' hs'
  obtain ⟨pnd, hps, hht⟩ := pm i nd p hs (hpp ▸ hp')
  obtain ⟨pnd', hps', _, hph'⟩ := h.getN_some_fwd p pnd hps
  exact ⟨pnd', hps', by omega⟩

theorem SameShape.heightLt {s s' : EState} (h : SameShape s s')
    (hl : HeightLt s) : HeightLt s' := by
  intro i nd' hs'
  obtain ⟨nd, hs, _, hph⟩ := h.getN_some_rev i nd' hs'
  rw [h.length_eq, hph]
  exact hl i nd hs

theorem sameCore_sameShape {s s' : EState} (h : SameCore s s') :
    SameShape s s' := by
  refine ⟨h.2.1, fun i => ?_⟩
  have h3 := h.2.2 i
  cases hs : getN s.nodes i with
  | none =>
    rw [hs] at h3
    simp at h3
    rw [h3]
  | some nd =>
    rw [hs] at h3
    cases hs' : getN s'.nodes i with
    | none => rw [hs'] at h3; simp at h3
    | some nd' =>
      rw [hs'] at h3
      simp at h3 ⊢
      exact ⟨h3.1, h3.2.1⟩

/-- setN with a snowball-only update (parent, height and status kept)
produces a SameCore state. -/
theorem sameCore_setN (s : EState) (i : Nat) (f : ANode → ANode)
    (hf : ∀ nd, (f nd).parent = nd.parent ∧ (f nd).height = nd.height ∧
      (f nd).status = nd.status) :
    SameCore s { s with nodes := setN s.nodes i f } := by
  refine ⟨rfl, keys_setN s.nodes i f, fun j => ?_⟩
  by_cases hj : j = i
  · subst hj
    show (getN (setN s.nodes j f) j).map _ = _
    rw [getN_setN_self]
    cases getN s.nodes j with
    | none => rfl
    | some nd => simp [hf nd]
  · show (getN (setN s.nodes i f) j).map _ = _
    rw [getN_setN_ne s.nodes i f j hj]

theorem sameCore_trans {s₁ s₂ s₃ : EState} (h1 : SameCore s₁ s₂)
    (h2 : SameCore s₂ s₃) : SameCore s₁ s₃ :=
  ⟨h2.1.trans h1.1, h2.2.1.trans h1.2.1, fun i => (h2.2.2 i).trans (h1.2.2 i)⟩

/-- childIds is unchanged by a parent-preserving mapN. -/
theorem childIds_mapN (s s' : EState) (g : Nat → ANode → ANode)
    (hn : s'.nodes = mapN s.nodes g)
    (hg : ∀ i nd, (g i nd).parent = nd.parent) (p : Nat) :
    childIds s' p = childIds s p := by
  unfold childIds
  rw [hn]
  induction s.nodes with
  | nil => rfl
  | cons e r ih =>
    by_cases h : e.2.parent = some p
    · simp only [mapN, List.map_cons, List.filter_cons] at ih ⊢
      rw [if_pos (by simpa [hg] using h), if_pos (by simpa using h)]
      simpa using ih
    · simp only [mapN, List.map_cons, List.filter_cons] at ih ⊢
      rw [if_neg (by simpa [hg] using h), if_neg (by simpa using h)]
      exact ih

/-! ## Acceptance cascade lemmas -/

theorem acceptCascade_last (s : EState) (w p : Nat) :
    (acceptCascade s w p).lastAccepted = w := rfl

theorem acceptCascade_getN_eval (s : EState) (w p j : Nat) (ndj : ANode)
    (hj : getN s.nodes j = some ndj) :
    getN (acceptCascade s w p).nodes j =
      some (if j = w then { ndj with status := BStatus.Accepted }
        else if ((childIds s p).filter (fun c => c ≠ w)).any
            (fun sb => sb ∈ upChain s j) then
          { ndj with status := BStatus.Rejected }
        else ndj) := by
  simp [acceptCascade, getN_mapN, hj]

theorem acceptCascade_getN_none (s : EState) (w p j : Nat)
    (hj : getN s.nodes j = none) :
    getN (acceptCascade s w p).nodes j = none := by
  simp [acceptCascade, getN_mapN, hj]

theorem acceptCascade_sameShape (s : EState) (w p : Nat) :
    SameShape s (acceptCascade s w p) := by
  constructor
  · simp [acceptCascade, keys_mapN]
  · intro i
    cases hs : getN s.nodes i with
    | none => rw [acceptCascade_getN_none s w p i hs]
    | some nd =>
      rw [acceptCascade_getN_eval s w p i nd hs]
      split_ifs <;> rfl

/-- Preservation of the invariant by the acceptance cascade, when the
accepted node is a Processing child of the accepted frontier. -/
theorem inv_acceptCascade {s : EState} (hinv : Inv s) (w : Nat)
    (wnd : ANode) (hwn : getN s.nodes w = some wnd)
    (hwp : wnd.parent = some s.lastAccepted)
    (hwst : wnd.status = BStatus.Processing) :
    Inv (acceptCascade s w s.lastAccepted) := by
  obtain ⟨pnd, hpn, hht⟩ := hinv.parent_mem w wnd s.lastAccepted hwn hwp
  obtain ⟨lnd, hls, hlacc⟩ := hinv.last_acc
  have hpl : pnd = lnd := Option.some.inj (hpn ▸ hls)
  subst hpl
  have hshape := acceptCascade_sameShape s w s.lastAccepted
  have hpw : s.lastAccepted ≠ w := by
    intro hc
    rw [hc, hwn] at hpn
    have : wnd = pnd := Option.some.inj hpn
    subst this
    omega
  -- sibling characterization
  have hsib : ∀ sb ∈ (childIds s s.lastAccepted).filter (fun c => c ≠ w),
      sb ≠ w ∧ ∃ ndsb, getN s.nodes sb = some ndsb ∧
        ndsb.parent = some s.lastAccepted ∧ ndsb.height = pnd.height + 1 := by
    intro sb hsb
    rw [List.mem_filter] at hsb
    obtain ⟨hmem, hne⟩ := hsb
    have hne' : sb ≠ w := by simpa using hne
    obtain ⟨ndsb, hmem', hpar⟩ := (mem_childIds s s.lastAccepted sb).mp hmem
    have hget := getN_of_mem s.nodes sb ndsb hinv.nodup hmem'
    obtain ⟨pnd', hpn', hht'⟩ :=
      hinv.parent_mem sb ndsb s.lastAccepted hget hpar
    have : pnd' = pnd := Option.some.inj (hpn' ▸ hpn)
    subst this
    exact ⟨hne', ndsb, hget, hpar, hht'⟩
  -- no sibling is an ancestor of the frontier
  have hnotp : ∀ sb ∈ (childIds s s.lastAccepted).filter (fun c => c ≠ w),
      sb ∉ upChain s s.lastAccepted := by
    intro sb hsb hmem
    obtain ⟨hne, ndsb, hget, hpar, hhts⟩ := hsib sb hsb
    rcases mem_upChainF_height s hinv.parent_mem s.nodes.length
        s.lastAccepted pnd sb hpn hmem with h1 | ⟨nd', h', hlt⟩
    · subst h1
      have : ndsb = pnd := Option.some.inj (hget ▸ hpn)
      subst this
      omega
    · have : nd' = ndsb := Option.some.inj (h' ▸ hget)
      subst this
      omega
  -- no sibling is an ancestor of w
  have hnotw : ∀ sb ∈ (childIds s s.lastAccepted).filter (fun c => c ≠ w),
      sb ∉ upChain s w := by
    intro sb hsb hmem
    rw [upChain_cons s hinv.parent_mem hinv.height_lt w s.lastAccepted wnd
      hwn hwp] at hmem
    rcases List.mem_cons.mp hmem with h1 | h1
    · exact (hsib sb hsb).1 h1
    · exact hnotp sb hsb h1
  -- no sibling is an ancestor of any Accepted node
  have hnotacc : ∀ j ndj, getN s.nodes j = some ndj →
      ndj.status = BStatus.Accepted →
      ∀ sb ∈ (childIds s s.lastAccepted).filter (fun c => c ≠ w),
        sb ∉ upChain s j := by
    intro j ndj hj hacc sb hsb hmem
    obtain ⟨hne, ndsb, hget, hpar, hhts⟩ := hsib sb hsb
    obtain ⟨ndsb', hget', hacc'⟩ :=
      chain_accepted hinv s.nodes.length j ndj hj hacc sb hmem
    have heq : ndsb' = ndsb := Option.some.inj (hget'.symm.trans hget)
    rw [heq] at hacc'
    exact no_accepted_child_of_frontier hinv sb ndsb hget hpar hacc'
  have hanyfalse : ∀ j ndj, getN s.nodes j = some ndj →
      ndj.status = BStatus.Accepted →
      (((childIds s s.lastAccepted).filter (fun c => c ≠ w)).any
        (fun sb => sb ∈ upChain s j)) = false := by
    intro j ndj hj hacc
    rw [List.any_eq_false]
    intro sb hsb
    simpa using hnotacc j ndj hj hacc sb hsb
  have hanyfalse_p :
      (((childIds s s.lastAccepted).filter (fun c => c ≠ w)).any
        (fun sb => sb ∈ upChain s s.lastAccepted)) = false := by
    rw [List.any_eq_false]
    intro sb hsb
    simpa using hnotp sb hsb
  -- getN facts in the cascaded state
  have hget_w : getN (acceptCascade s w s.lastAccepted).nodes w =
      some { wnd with status := BStatus.Accepted } := by
    rw [acceptCascade_getN_eval s w s.lastAccepted w wnd hwn, if_pos rfl]
  have hget_keep : ∀ j ndj, getN s.nodes j = some ndj → j ≠ w →
      ndj.status = BStatus.Accepted →
      getN (acceptCascade s w s.lastAccepted).nodes j = some ndj := by
    intro j ndj hj hne hacc
    rw [acceptCascade_getN_eval s w s.lastAccepted j ndj hj, if_neg hne,
      hanyfalse j ndj hj hacc, if_neg (by simp)]
  have hget_p : getN (acceptCascade s w s.lastAccepted).nodes s.lastAccepted
      = some pnd := by
    rw [acceptCascade_getN_eval s w s.lastAccepted s.lastAccepted pnd hpn,
      if_neg hpw, hanyfalse_p, if_neg (by simp)]
  have hup := hshape.upchain_eq
  have hchain_w : upChain (acceptCascade s w s.lastAccepted) w =
      w :: upChain s s.lastAccepted := by
    rw [hup w]
    exact upChain_cons s hinv.parent_mem hinv.height_lt w s.lastAccepted wnd
      hwn hwp
  -- now the invariant fields
  refine ⟨hshape.1 ▸ hinv.nodup, ?_, ?_, hshape.parentMemOf hinv.parent_mem,
    hshape.heightLt hinv.height_lt, ?_, ?_, ?_⟩
  · -- genesis
    obtain ⟨g, hg, hgp, hgh, hgs⟩ := hinv.genesis
    have hgw : (0 : Nat) ≠ w := by
      intro hc
      rw [← hc] at hwn
      have : wnd = g := (Option.some.inj (hg.symm.trans hwn)).symm
      rw [this, hgp] at hwp
      exact Option.noConfusion hwp
    exact ⟨g, hget_keep 0 g hg hgw hgs, hgp, hgh, hgs⟩
  · -- root_unique
    intro i nd' hs' hp'
    obtain ⟨nd, hs, hpp, _⟩ := hshape.getN_some_rev i nd' hs'
    exact hinv.root_unique i nd hs (hpp ▸ hp')
  · -- acc_parent
    intro j nd' q hs' hacc' hpar'
    cases hj : getN s.nodes j with
    | none => rw [acceptCascade_getN_none s w s.lastAccepted j hj] at hs'
              exact Option.noConfusion hs'
    | some ndj =>
      rw [acceptCascade_getN_eval s w s.lastAccepted j ndj hj] at hs'
      have hnd' := Option.some.inj hs'
      by_cases hjw : j = w
      · subst hjw
        rw [if_pos rfl] at hnd'
        have : ndj = wnd := Option.some.inj (hj ▸ hwn)
        subst this
        have hq : q = s.lastAccepted := by
          rw [← hnd'] at hpar'
          simp at hpar'
          exact Option.some.inj (hpar' ▸ hwp.symm).symm
        subst hq
        exact ⟨pnd, hget_p, hlacc⟩
      · rw [if_neg hjw] at hnd'
        by_cases hrej : (((childIds s s.lastAccepted).filter (fun c => c ≠ w)).any
            (fun sb => sb ∈ upChain s j)) = true
        · rw [if_pos hrej] at hnd'
          rw [← hnd'] at hacc'
          simp at hacc'
        · rw [if_neg hrej] at hnd'
          subst hnd'
          have hjacc : ndj.status = BStatus.Accepted := hacc'
          have hjpar : ndj.parent = some q := hpar'
          obtain ⟨qnd, hq, hqacc⟩ := hinv.acc_parent j ndj q hj hjacc hjpar
          have hqw : q ≠ w := by
            intro hc
            rw [hc, hwn] at hq
            have : qnd = wnd := (Option.some.inj hq).symm
            rw [this, hwst] at hqacc
            exact BStatus.noConfusion hqacc
          exact ⟨qnd, hget_keep q qnd hq hqw hqacc, hqacc⟩
  · -- last_acc
    exact ⟨{ wnd with status := BStatus.Accepted },
      (acceptCascade_last s w s.lastAccepted).symm ▸ hget_w, rfl⟩
  · -- acc_chain
    intro j nd' hs' hacc'
    rw [acceptCascade_last]
    rw [hchain_w]
    cases hj : getN s.nodes j with
    | none => rw [acceptCascade_getN_none s w s.lastAccepted j hj] at hs'
              exact Option.noConfusion hs'
    | some ndj =>
      rw [acceptCascade_getN_eval s w s.lastAccepted j ndj hj] at hs'
      have hnd' := Option.some.inj hs'
      by_cases hjw : j = w
      · exact hjw ▸ List.mem_cons_self _ _
      · rw [if_neg hjw] at hnd'
        by_cases hrej : (((childIds s s.lastAccepted).filter (fun c => c ≠ w)).any
            (fun sb => sb ∈ upChain s j)) = true
        · rw [if_pos hrej] at hnd'
          rw [← hnd'] at hacc'
          simp at hacc'
        · rw [if_neg hrej] at hnd'
          subst hnd'
          exact List.mem_cons_of_mem _ (hinv.acc_chain j ndj hj hacc')

/-- Preservation of the invariant by one conflict-set round step. -/
theorem inv_processSet (pr : Params) (t : List (Nat × Nat)) {s : EState}
    (hinv : Inv s) (p : Nat) : Inv (processSet pr t s p) := by
  cases hw : findWinner pr s t (childIds s p) with
  | none => simpa [processSet, hw] using hinv
  | some w =>
    have hwmem : w ∈ childIds s p := List.mem_of_find?_eq_some hw
    have hwpred := List.find?_some hw
    obtain ⟨ndw, hmem0, hpar0⟩ := (mem_childIds s p w).mp hwmem
    have hwn : getN s.nodes w = some ndw :=
      getN_of_mem s.nodes w ndw hinv.nodup hmem0
    have hwproc : ndw.status = BStatus.Processing := by
      simp [isProcessingB, hwn] at hwpred
      exact hwpred.1
    cases hpn : getN s.nodes p with
    | none => simpa [processSet, hw, hpn] using hinv
    | some pnd =>
      simp only [processSet, hw, hpn, hwn]
      by_cases hpref : pnd.lastPollPreference = some w
      · rw [if_pos hpref]
        by_cases hcond : pr.Beta ≤ ndw.confidence + 1 ∧ p = s.lastAccepted
        · rw [if_pos hcond]
          have hsc : SameCore s
              { s with nodes := setN s.nodes w (fun nd =>
                  { nd with confidence := ndw.confidence + 1,
                            numSuccesses := nd.numSuccesses + 1 }) } :=
            sameCore_setN s w _ (fun nd => ⟨rfl, rfl, rfl⟩)
          have hinv1 := inv_of_sameCore hinv hsc
          have hg1 : getN (setN s.nodes w (fun nd =>
              { nd with confidence := ndw.confidence + 1,
                        numSuccesses := nd.numSuccesses + 1 })) w =
              some { ndw with confidence := ndw.confidence + 1,
                              numSuccesses := ndw.numSuccesses + 1 } := by
            rw [getN_setN_self, hwn]
            rfl
          rw [hcond.2]
          exact inv_acceptCascade hinv1 w _ hg1 (by simp [← hcond.2, hpar0])
            (by simpa using hwproc)
        · rw [if_neg hcond]
          exact inv_of_sameCore hinv
            (sameCore_setN s w _ (fun nd => ⟨rfl, rfl, rfl⟩))
      · rw [if_neg hpref]
        have h1 : SameCore s
            { s with nodes := setN s.nodes w (fun nd =>
                { nd with confidence := 1,
                          numSuccesses := nd.numSuccesses + 1 }) } :=
          sameCore_setN s w _ (fun nd => ⟨rfl, rfl, rfl⟩)
        have h2 := sameCore_setN
            { s with nodes := setN s.nodes w (fun nd =>
                { nd with confidence := 1,
                          numSuccesses := nd.numSuccesses + 1 }) } p
            (fun nd => { nd with lastPollPreference := some w })
            (fun nd => ⟨rfl, rfl, rfl⟩)
        exact inv_of_sameCore hinv (sameCore_trans h1 h2)

/-! ## Add preservation -/

theorem getN_snoc_cases (l : List (Nat × ANode)) (k : Nat) (v : ANode)
    (j : Nat) (nd' : ANode) (h : getN (l ++ [(k, v)]) j = some nd') :
    getN l j = some nd' ∨ (getN l j = none ∧ j = k ∧ nd' = v) := by
  cases hl : getN l j with
  | some u =>
    rw [getN_append_left l [(k, v)] j u hl] at h
    exact Or.inl h
  | none =>
    rw [getN_append_none l [(k, v)] j hl] at h
    by_cases hk : k = j
    · simp [getN, hk] at h
      exact Or.inr ⟨rfl, hk.symm, h.symm⟩
    · simp [getN, hk] at h

theorem upChainF_extend (s s' : EState) (pm : ParentMem s)
    (hold : ∀ j nd, getN s.nodes j = some nd → getN s'.nodes j = some nd) :
    ∀ (f j : Nat) (nd : ANode), getN s.nodes j = some nd →
      upChainF s' f j = upChainF s f j := by
  intro f
  induction f with
  | zero => intro j nd _; rfl
  | succ f ih =>
    intro j nd hj
    have hj' := hold j nd hj
    cases hp : nd.parent with
    | none => rw [upChainF_of_root s' j nd hj' hp, upChainF_of_root s j nd hj hp]
    | some p =>
      obtain ⟨pnd, hps, _⟩ := pm j nd p hj hp
      rw [upChainF_succ s' f j p nd hj' hp, upChainF_succ s f j p nd hj hp,
        ih p pnd hps]

theorem upChain_extend (s s' : EState) (pm : ParentMem s) (pm' : ParentMem s')
    (hl : HeightLt s) (hl' : HeightLt s')
    (hold : ∀ j nd, getN s.nodes j = some nd → getN s'.nodes j = some nd)
    (j : Nat) (nd : ANode) (hj : getN s.nodes j = some nd) :
    upChain s' j = upChain s j := by
  have hj' := hold j nd hj
  have h1 : upChain s' j = upChainF s' nd.height j :=
    upChainF_stable s' pm' s'.nodes.length s'.nodes.length j nd hj'
      (le_of_lt (hl' j nd hj')) (le_of_lt (hl' j nd hj'))
  have h2 : upChain s j = upChainF s nd.height j :=
    upChainF_stable s pm s.nodes.length s.nodes.length j nd hj
      (le_of_lt (hl j nd hj)) (le_of_lt (hl j nd hj))
  rw [h1, h2, upChainF_extend s s' pm hold nd.height j nd hj]

/-- Preservation of the invariant by Add. -/
theorem inv_addBlock (s : EState) (b : Blk) (hinv : Inv s) :
    Inv (addBlock s b).2 := by
  cases hid : getN s.nodes b.id with
  | some v => simpa [addBlock, hid] using hinv
  | none =>
    cases hpn : getN s.nodes b.parent with
    | none => simpa [addBlock, hid, hpn] using hinv
    | some pnd =>
      by_cases hrej : pnd.status = BStatus.Rejected
      · simpa [addBlock, hid, hpn, hrej] using hinv
      · have hred : (addBlock s b).2 =
            { s with nodes := s.nodes ++
                [(b.id,
                  { parent := some b.parent, height := pnd.height + 1,
                    status := BStatus.Processing, confidence := 0,
                    numSuccesses := 0, lastPollPreference := none })] } := by
          simp [addBlock, hid, hpn, hrej]
        rw [hred]
        set nn : ANode :=
          { parent := some b.parent, height := pnd.height + 1,
            status := BStatus.Processing, confidence := 0,
            numSuccesses := 0, lastPollPreference := none } with hnn
        set s' : EState := { s with nodes := s.nodes ++ [(b.id, nn)] }
          with hs'
        have hold : ∀ j nd, getN s.nodes j = some nd →
            getN s'.nodes j = some nd := fun j nd h =>
          getN_append_left s.nodes [(b.id, nn)] j nd h
        have hcases : ∀ j nd', getN s'.nodes j = some nd' →
            getN s.nodes j = some nd' ∨
              (getN s.nodes j = none ∧ j = b.id ∧ nd' = nn) := fun j nd' h =>
          getN_snoc_cases s.nodes b.id nn j nd' h
        have hlen : s'.nodes.length = s.nodes.length + 1 := by simp [hs']
        have pm' : ParentMem s' := by
          intro j nd' q hj' hq'
          rcases hcases j nd' hj' with h1 | ⟨_, _, h3⟩
          · obtain ⟨qnd, hqs, hht⟩ := hinv.parent_mem j nd' q h1 hq'
            exact ⟨qnd, hold q qnd hqs, hht⟩
          · subst h3
            have hq : q = b.parent := by
              rw [hnn] at hq'
              exact (Option.some.inj hq').symm
            subst hq
            exact ⟨pnd, hold b.parent pnd hpn, rfl⟩
        have hl' : HeightLt s' := by
          intro j nd' hj'
          rw [hlen]
          rcases hcases j nd' hj' with h1 | ⟨_, _, h3⟩
          · have := hinv.height_lt j nd' h1
            omega
          · subst h3
            have := hinv.height_lt b.parent pnd hpn
            simp [hnn]
            omega
        refine ⟨?_, ?_, ?_, pm', hl', ?_, ?_, ?_⟩
        · have hperm := List.perm_append_singleton (b.id, nn) s.nodes
          have := (hperm.map Prod.fst).nodup_iff
          rw [hs']
          show ((s.nodes ++ [(b.id, nn)]).map Prod.fst).Nodup
          rw [this]
          simp only [List.map_cons, List.nodup_cons]
          exact ⟨(getN_eq_none_iff s.nodes b.id).mp hid, hinv.nodup⟩
        · obtain ⟨g, hg, hgp, hgh, hgs⟩ := hinv.genesis
          exact ⟨g, hold 0 g hg, hgp, hgh, hgs⟩
        · intro j nd' hj' hp'
          rcases hcases j nd' hj' with h1 | ⟨_, _, h3⟩
          · exact hinv.root_unique j nd' h1 hp'
          · subst h3
            rw [hnn] at hp'
            exact Option.noConfusion hp'
        · intro j nd' q hj' hacc' hq'
          rcases hcases j nd' hj' with h1 | ⟨_, _, h3⟩
          · obtain ⟨qnd, hqs, hqacc⟩ := hinv.acc_parent j nd' q h1 hacc' hq'
            exact ⟨qnd, hold q qnd hqs, hqacc⟩
          · subst h3
            rw [hnn] at hacc'
            exact BStatus.noConfusion hacc'
        · obtain ⟨lnd, hls, hlacc⟩ := hinv.last_acc
          exact ⟨lnd, hold s.lastAccepted lnd hls, hlacc⟩
        · intro j nd' hj' hacc'
          rcases hcases j nd' hj' with h1 | ⟨_, _, h3⟩
          · obtain ⟨lnd, hls, _⟩ := hinv.last_acc
            have := hinv.acc_chain j nd' h1 hacc'
            show j ∈ upChain s' s.lastAccepted
            rw [upChain_extend s s' hinv.parent_mem pm' hinv.height_lt hl'
              hold s.lastAccepted lnd hls]
            exact this
          · subst h3
            rw [hnn] at hacc'
            exact BStatus.noConfusion hacc'

/-! ## Reachability carries the invariant -/

theorem inv_foldl (pr : Params) (t : List (Nat × Nat)) :
    ∀ (l : List Nat) (s : EState), Inv s →
      Inv (l.foldl (processSet pr t) s) := by
  intro l
  induction l with
  | nil => exact fun s h => h
  | cons p r ih =>
    intro s h
    exact ih _ (inv_processSet pr t h p)

theorem inv_recordVotes (pr : Params) (t : List (Nat × Nat)) {s : EState}
    (hinv : Inv s) : Inv (recordVotes pr s t).2 := by
  by_cases hc : t.any (fun e => (getN s.nodes e.1).isNone)
  · simpa [recordVotes, hc] using hinv
  · simp only [recordVotes, if_neg hc]
    exact inv_foldl pr t (touched s t) s hinv

theorem inv_init : Inv initState := by
  have hget : ∀ i nd, getN initState.nodes i = some nd →
      i = 0 ∧ nd = genesisNode := by
    intro i nd h
    by_cases h0 : (0 : Nat) = i
    · subst h0
      refine ⟨rfl, ?_⟩
      have h2 : genesisNode = nd := by simpa [initState, getN] using h
      exact h2.symm
    · exfalso
      simp [initState, getN, h0] at h
  refine ⟨by simp [initState], ⟨genesisNode, rfl, rfl, rfl, rfl⟩, ?_, ?_, ?_,
    ?_, ⟨genesisNode, rfl, rfl⟩, ?_⟩
  · intro i nd h _
    exact (hget i nd h).1
  · intro i nd p h hp
    obtain ⟨_, rfl⟩ := hget i nd h
    exact Option.noConfusion (show (none : Option Nat) = some p from hp)
  · intro i nd h
    obtain ⟨rfl, rfl⟩ := hget i nd h
    simp [initState, genesisNode]
  · intro i nd p h _ hp
    obtain ⟨_, rfl⟩ := hget i nd h
    exact Option.noConfusion (show (none : Option Nat) = some p from hp)
  · intro i nd h _
    obtain ⟨rfl, _⟩ := hget i nd h
    exact upChain_head initState 0
/-- Every reachable engine state satisfies the invariant. -/
theorem inv_reachable (pr : Params) (s : EState) (h : Reachable pr s) :
    Inv s := by
  induction h with
  | init => exact inv_init
  | add s b _ ih => exact inv_addBlock s b ih
  | vote s t _ ih => exact inv_recordVotes pr t ih

/-! ## Concrete scenario (spec §8 end-to-end and preference-switch) -/

/-- Snowball confidence of a node, `none` when unknown. -/
def confOf (s : EState) (i : Nat) : Option Nat :=
  (getN s.nodes i).map (·.confidence)

/-- Current intra-set preference stored at a node, `none` when unknown. -/
def prefOf (s : EState) (i : Nat) : Option (Option Nat) :=
  (getN s.nodes i).map (·.lastPollPreference)

def blkA1 : Blk := { id := 1, parent := 0 }

def blkA2 : Blk := { id := 2, parent := 0 }

/-- Genesis plus two conflicting children A1 (id 1) and A2 (id 2). -/
def stateB : EState := (addBlock (addBlock initState blkA1).2 blkA2).2

/-- Tally favouring A1 with 16 of 20 votes. -/
def tallyA1 : List (Nat × Nat) := [(1, 16), (2, 4)]

/-- Tally favouring A2 with 16 of 20 votes. -/
def tallyA2 : List (Nat × Nat) := [(2, 16), (1, 4)]

def roundA1 (s : EState) : EState := (recordVotes pr20 s tallyA1).2

/-- State after n rounds of the A1-favouring tally. -/
def sR : Nat → EState
  | 0 => stateB
  | n + 1 => roundA1 (sR n)

/-- Dissenting round: A2 wins round 2 after A1 won round 1. -/
def sW2 : EState := (recordVotes pr20 (sR 1) tallyA2).2

/-- A1 wins again right after the dissenting round. -/
def sW3 : EState := (recordVotes pr20 sW2 tallyA1).2

theorem reach_stateB : Reachable pr20 stateB :=
  Reachable.add _ blkA2 (Reachable.add _ blkA1 Reachable.init)

theorem reach_sR : ∀ n, Reachable pr20 (sR n) := by
  intro n
  induction n with
  | zero => exact reach_stateB
  | succ n ih => exact Reachable.vote _ tallyA1 ih

/-- C8: before any poll is processed the store contains exactly one node,
the genesis block, pre-marked Accepted with no parent, and LastAccepted
is the genesis identity. -/
theorem C8_bootstrap :
    initState.nodes = [(0, genesisNode)] ∧
    genesisNode.status = BStatus.Accepted ∧
    genesisNode.parent = none ∧
    initState.lastAccepted = 0 ∧
    statusOf initState 0 = some BStatus.Accepted :=
  ⟨rfl, rfl, rfl, rfl, rfl⟩

/-- C6: Add of an identity already present returns AlreadyAdded and
leaves the engine state (nodes, links, statuses, snowball state)
exactly unchanged. -/
theorem C6_add_idempotent (s : EState) (b : Blk)
    (h : (getN s.nodes b.id).isSome) :
    addBlock s b = (some AddErr.AlreadyAdded, s) := by
  simp [addBlock, h]

/-- Witness for C6: re-adding A1 after it was added is an AlreadyAdded
no-op. -/
theorem C6_add_idempotent_witness :
    (getN stateB.nodes blkA1.id).isSome = true ∧
    addBlock stateB blkA1 = (some AddErr.AlreadyAdded, stateB) :=
  ⟨by decide, C6_add_idempotent stateB blkA1 (by decide)⟩

/-- C2: with K=20, Alpha=15, Beta=5, a preferred Processing block winning
at least 15 votes per round is Accepted exactly on the 5th consecutive
winning round and not earlier (confidence counts 1..5), and a dissenting
round in which the sibling wins resets the streak: when the original
block wins again directly afterwards its confidence is 1, not 2, and
acceptance needs 4 further winning rounds from there. -/
theorem C2_finalization_threshold :
    statusOf (sR 1) 1 = some BStatus.Processing ∧
    statusOf (sR 2) 1 = some BStatus.Processing ∧
    statusOf (sR 3) 1 = some BStatus.Processing ∧
    statusOf (sR 4) 1 = some BStatus.Processing ∧
    statusOf (sR 5) 1 = some BStatus.Accepted ∧
    confOf (sR 1) 1 = some 1 ∧
    confOf (sR 2) 1 = some 2 ∧
    confOf (sR 3) 1 = some 3 ∧
    confOf (sR 4) 1 = some 4 ∧
    confOf (sR 5) 1 = some 5 ∧
    prefOf (sR 1) 0 = some (some 1) ∧
    prefOf sW2 0 = some (some 2) ∧
    confOf sW2 2 = some 1 ∧
    statusOf sW2 1 = some BStatus.Processing ∧
    prefOf sW3 0 = some (some 1) ∧
    confOf sW3 1 = some 1 ∧
    statusOf sW3 1 = some BStatus.Processing ∧
    statusOf (roundA1 (roundA1 (roundA1 sW3))) 1 = some BStatus.Processing ∧
    statusOf (roundA1 (roundA1 (roundA1 (roundA1 sW3)))) 1 =
      some BStatus.Accepted := by
  decide

/-- C1: in every reachable engine state, no two distinct Accepted blocks
share a conflict set (at most one member of any conflict set is
Accepted), and of any two Accepted blocks one lies on the other's
ancestor chain. -/
theorem C1_safety (pr : Params) (s : EState) (h : Reachable pr s)
    (i j p : Nat) (ndi ndj : ANode)
    (hi : getN s.nodes i = some ndi) (hj : getN s.nodes j = some ndj)
    (hij : i ≠ j) (hai : ndi.status = BStatus.Accepted)
    (haj : ndj.status = BStatus.Accepted) :
    ¬(ndi.parent = some p ∧ ndj.parent = some p) ∧
    (i ∈ upChain s j ∨ j ∈ upChain s i) := by
  have hinv := inv_reachable pr s h
  constructor
  · intro ⟨hpi, hpj⟩
    exact hij (acc_unique hinv i j p ndi ndj hi hj hpi hpj hai haj)
  · have hci := hinv.acc_chain i ndi hi hai
    have hcj := hinv.acc_chain j ndj hj haj
    exact upChain_linear s hinv.parent_mem hinv.height_lt s.nodes.length
      s.lastAccepted i j hci hcj

/-- Witness for C1: after the five-round scenario, genesis and A1 are
both Accepted; they do not share a parent and genesis is an ancestor of
A1. -/
theorem C1_safety_witness :
    getN (sR 5).nodes 0 = some ⟨none, 0, BStatus.Accepted, 0, 0, some 1⟩ ∧
    getN (sR 5).nodes 1 = some ⟨some 0, 1, BStatus.Accepted, 5, 5, none⟩ ∧
    (¬((ANode.parent ⟨none, 0, BStatus.Accepted, 0, 0, some 1⟩ = some 0) ∧
       (ANode.parent ⟨some 0, 1, BStatus.Accepted, 5, 5, none⟩ = some 0)) ∧
     (0 ∈ upChain (sR 5) 1 ∨ 1 ∈ upChain (sR 5) 0)) :=
  ⟨by decide, by decide,
    C1_safety pr20 (sR 5) (reach_sR 5) 0 1 0 _ _ (by decide) (by decide)
      (by decide) (by decide) (by decide)⟩

/-- C4: in every reachable engine state, the parent chain of any
Accepted block reaches genesis, every block on that chain is Accepted,
and in particular the parent of an Accepted block is Accepted. -/
theorem C4_ancestry_closure (pr : Params) (s : EState) (h : Reachable pr s)
    (i : Nat) (nd : ANode) (hi : getN s.nodes i = some nd)
    (hacc : nd.status = BStatus.Accepted) :
    0 ∈ upChain s i ∧
    (∀ j ∈ upChain s i, statusOf s j = some BStatus.Accepted) ∧
    (∀ p, nd.parent = some p → statusOf s p = some BStatus.Accepted) := by
  have hinv := inv_reachable pr s h
  refine ⟨genesis_mem_upChain hinv nd.height i nd hi le_rfl, ?_, ?_⟩
  · intro j hj
    obtain ⟨ndj, hjs, hjacc⟩ :=
      chain_accepted hinv s.nodes.length i nd hi hacc j hj
    simp [statusOf, hjs, hjacc]
  · intro p hp
    obtain ⟨pnd, hps, hpacc⟩ := hinv.acc_parent i nd p hi hacc hp
    simp [statusOf, hps, hpacc]

/-- Witness for C4: A1 after five rounds is Accepted, its chain reaches
genesis through Accepted blocks only. -/
theorem C4_ancestry_closure_witness :
    getN (sR 5).nodes 1 = some ⟨some 0, 1, BStatus.Accepted, 5, 5, none⟩ ∧
    (0 ∈ upChain (sR 5) 1 ∧
     (∀ j ∈ upChain (sR 5) 1, statusOf (sR 5) j = some BStatus.Accepted) ∧
     (∀ p, ANode.parent ⟨some 0, 1, BStatus.Accepted, 5, 5, none⟩ = some p →
       statusOf (sR 5) p = some BStatus.Accepted)) :=
  ⟨by decide,
    C4_ancestry_closure pr20 (sR 5) (reach_sR 5) 1 _ (by decide) (by decide)⟩

theorem SameCore.statusOf_eq {s s' : EState} (h : SameCore s s') (i : Nat) :
    statusOf s' i = statusOf s i := by
  have h3 := h.2.2 i
  unfold statusOf
  cases hs : getN s.nodes i with
  | none =>
    rw [hs] at h3
    simp at h3
    rw [h3]
  | some nd =>
    rw [hs] at h3
    cases hs' : getN s'.nodes i with
    | none => rw [hs'] at h3; simp at h3
    | some nd' =>
      rw [hs'] at h3
      simp at h3 ⊢
      exact h3.2.2

theorem SameCore.getN_none {s s' : EState} (h : SameCore s s') (i : Nat)
    (hs : getN s.nodes i = none) : getN s'.nodes i = none := by
  have h3 := h.2.2 i
  rw [hs] at h3
  simpa using h3

/-- C3: whenever processing one conflict set transitions a block w to
Accepted, every other member of w's conflict set ends Rejected, every
descendant (to arbitrary depth) of every such member ends Rejected, and
the accepted frontier after the cascade equals w. -/
theorem C3_acceptance_cascade (pr : Params) (t : List (Nat × Nat))
    (s : EState) (h : Reachable pr s) (p w : Nat)
    (hnot : statusOf s w ≠ some BStatus.Accepted)
    (hacc : statusOf (processSet pr t s p) w = some BStatus.Accepted) :
    (∀ sb ∈ childIds s p, sb ≠ w →
      statusOf (processSet pr t s p) sb = some BStatus.Rejected) ∧
    (∀ sb ∈ childIds s p, sb ≠ w → ∀ d nd, getN s.nodes d = some nd →
      sb ∈ upChain s d →
      statusOf (processSet pr t s p) d = some BStatus.Rejected) ∧
    (processSet pr t s p).lastAccepted = w := by
  have hinv := inv_reachable pr s h
  cases hw0 : findWinner pr s t (childIds s p) with
  | none =>
    rw [show processSet pr t s p = s by simp [processSet, hw0]] at hacc
    exact absurd hacc hnot
  | some w' =>
    have hwmem : w' ∈ childIds s p := List.mem_of_find?_eq_some hw0
    have hwpred := List.find?_some hw0
    obtain ⟨ndw, hmem0, hpar0⟩ := (mem_childIds s p w').mp hwmem
    have hwn : getN s.nodes w' = some ndw :=
      getN_of_mem s.nodes w' ndw hinv.nodup hmem0
    have hwproc : ndw.status = BStatus.Processing := by
      simp [isProcessingB, hwn] at hwpred
      exact hwpred.1
    cases hpn : getN s.nodes p with
    | none =>
      rw [show processSet pr t s p = s by simp [processSet, hw0, hpn]] at hacc
      exact absurd hacc hnot
    | some pnd =>
      simp only [processSet, hw0, hpn, hwn] at hacc ⊢
      by_cases hpref : pnd.lastPollPreference = some w'
      · rw [if_pos hpref] at hacc ⊢
        by_cases hcond : pr.Beta ≤ ndw.confidence + 1 ∧ p = s.lastAccepted
        · rw [if_pos hcond] at hacc ⊢
          have hsc : SameCore s
              { s with nodes := setN s.nodes w' (fun nd =>
                  { nd with confidence := ndw.confidence + 1,
                            numSuccesses := nd.numSuccesses + 1 }) } :=
            sameCore_setN s w' _ (fun nd => ⟨rfl, rfl, rfl⟩)
          set s1 : EState :=
            { s with nodes := setN s.nodes w' (fun nd =>
                { nd with confidence := ndw.confidence + 1,
                          numSuccesses := nd.numSuccesses + 1 }) } with hs1
          have hcid : childIds s1 p = childIds s p :=
            childIds_mapN s s1
              (fun j nd => if j = w' then
                { nd with confidence := ndw.confidence + 1,
                          numSuccesses := nd.numSuccesses + 1 }
               else nd)
              rfl (fun i nd => by by_cases hiw : i = w' <;> simp [hiw]) p
          have hupeq := (sameCore_sameShape hsc).upchain_eq
          -- the newly accepted block is exactly the winner
          have hww : w = w' := by
            by_contra hne
            unfold statusOf at hacc
            cases hw2 : getN s.nodes w with
            | none =>
              rw [acceptCascade_getN_none s1 w' p w
                (hsc.getN_none w hw2)] at hacc
              exact Option.noConfusion hacc
            | some ndw2 =>
              obtain ⟨ndw2', h2', _, _, hst2⟩ := hsc.getN_some w ndw2 hw2
              rw [acceptCascade_getN_eval s1 w' p w ndw2' h2',
                if_neg hne] at hacc
              by_cases hrej :
                  (((childIds s1 p).filter (fun c => c ≠ w')).any
                    (fun sb => sb ∈ upChain s1 w)) = true
              · rw [if_pos hrej] at hacc
                simp at hacc
              · rw [if_neg hrej] at hacc
                simp at hacc
                rw [hst2] at hacc
                exact hnot (by simp [statusOf, hw2, hacc])
          subst hww
          refine ⟨?_, ?_, acceptCascade_last s1 w p⟩
          · intro sb hsb hne
            obtain ⟨ndsb, hmemsb, hparsb⟩ := (mem_childIds s p sb).mp hsb
            have hgsb : getN s.nodes sb = some ndsb :=
              getN_of_mem s.nodes sb ndsb hinv.nodup hmemsb
            obtain ⟨ndsb', hgsb', _, _, _⟩ := hsc.getN_some sb ndsb hgsb
            have hany : (((childIds s1 p).filter (fun c => c ≠ w)).any
                (fun sb' => sb' ∈ upChain s1 sb)) = true := by
              rw [List.any_eq_true]
              refine ⟨sb, ?_, ?_⟩
              · rw [List.mem_filter, hcid]
                exact ⟨hsb, by simp [hne]⟩
              · exact decide_eq_true (upChain_head s1 sb)
            unfold statusOf
            rw [acceptCascade_getN_eval s1 w p sb ndsb' hgsb', if_neg hne,
              if_pos hany]
            rfl
          · intro sb hsb hne d nd hd hchain
            obtain ⟨ndsb, hmemsb, hparsb⟩ := (mem_childIds s p sb).mp hsb
            have hgsb : getN s.nodes sb = some ndsb :=
              getN_of_mem s.nodes sb ndsb hinv.nodup hmemsb
            obtain ⟨pnd2, hpn2, hhtsb⟩ :=
              hinv.parent_mem sb ndsb p hgsb hparsb
            have hpnd2 : pnd2 = pnd := Option.some.inj (hpn2.symm.trans hpn)
            rw [hpnd2] at hhtsb
            have hdw : d ≠ w := by
              intro hdw
              subst hdw
              rw [upChain_cons s hinv.parent_mem hinv.height_lt d p ndw hwn
                hpar0] at hchain
              rcases List.mem_cons.mp hchain with h1 | h1
              · exact hne h1
              · rcases mem_upChainF_height s hinv.parent_mem s.nodes.length
                    p pnd sb hpn h1 with h2 | ⟨nd2, hg2, hlt⟩
                · subst h2
                  have : ndsb = pnd :=
                    Option.some.inj (hgsb.symm.trans hpn)
                  subst this
                  omega
                · have : nd2 = ndsb := Option.some.inj (hg2.symm.trans hgsb)
                  subst this
                  omega
            obtain ⟨nd1, hgd1, _, _, _⟩ := hsc.getN_some d nd hd
            have hany : (((childIds s1 p).filter (fun c => c ≠ w)).any
                (fun sb' => sb' ∈ upChain s1 d)) = true := by
              rw [List.any_eq_true]
              refine ⟨sb, ?_, ?_⟩
              · rw [List.mem_filter, hcid]
                exact ⟨hsb, by simp [hne]⟩
              · exact decide_eq_true ((hupeq d).symm ▸ hchain)
            unfold statusOf
            rw [acceptCascade_getN_eval s1 w p d nd1 hgd1, if_neg hdw,
              if_pos hany]
            rfl
        · rw [if_neg hcond] at hacc
          have hsc : SameCore s
              { s with nodes := setN s.nodes w' (fun nd =>
                  { nd with confidence := ndw.confidence + 1,
                            numSuccesses := nd.numSuccesses + 1 }) } :=
            sameCore_setN s w' _ (fun nd => ⟨rfl, rfl, rfl⟩)
          rw [hsc.statusOf_eq] at hacc
          exact absurd hacc hnot
      · rw [if_neg hpref] at hacc
        have h1 : SameCore s
            { s with nodes := setN s.nodes w' (fun nd =>
                { nd with confidence := 1,
                          numSuccesses := nd.numSuccesses + 1 }) } :=
          sameCore_setN s w' _ (fun nd => ⟨rfl, rfl, rfl⟩)
        have h2 := sameCore_setN
            { s with nodes := setN s.nodes w' (fun nd =>
                { nd with confidence := 1,
                          numSuccesses := nd.numSuccesses + 1 }) } p
            (fun nd => { nd with lastPollPreference := some w' })
            (fun nd => ⟨rfl, rfl, rfl⟩)
        rw [(sameCore_trans h1 h2).statusOf_eq] at hacc
        exact absurd hacc hnot

/-- Witness for C3: the fifth qualifying round accepts A1; A2 is its only
conflict-set sibling and ends Rejected, and the frontier moves to A1. -/
theorem C3_acceptance_cascade_witness :
    statusOf (sR 4) 1 ≠ some BStatus.Accepted ∧
    statusOf (processSet pr20 tallyA1 (sR 4) 0) 1 = some BStatus.Accepted ∧
    ((∀ sb ∈ childIds (sR 4) 0, sb ≠ 1 →
      statusOf (processSet pr20 tallyA1 (sR 4) 0) sb = some BStatus.Rejected) ∧
    (∀ sb ∈ childIds (sR 4) 0, sb ≠ 1 → ∀ d nd,
      getN (sR 4).nodes d = some nd → sb ∈ upChain (sR 4) d →
      statusOf (processSet pr20 tallyA1 (sR 4) 0) d = some BStatus.Rejected) ∧
    (processSet pr20 tallyA1 (sR 4) 0).lastAccepted = 1) :=
  ⟨by decide, by decide,
    C3_acceptance_cascade pr20 tallyA1 (sR 4) (reach_sR 4) 0 1
      (by decide) (by decide)⟩

/-! ## secp256k1fx TransferOutput (src/unnamed/part_000) -/

/-- Embedded OutputOwners: its own Verify is not among the provided
sources, so it is represented by the outcome of that call (`true` means
OutputOwners.Verify returns a non-nil error). -/
structure OutputOwners where
  verifyErr : Bool
deriving DecidableEq, Repr

/-- TransferOutput (part_000 lines 15–20): amount, locktime and the
embedded OutputOwners. -/
structure TransferOutput where
  Amt : Nat
  Locktime : Nat
  owners : OutputOwners
deriving DecidableEq, Repr

/-- Errors TransferOutput.Verify can return (part_000 lines 26–35): the
nil-receiver error, the zero-amount error, or an OutputOwners error. -/
inductive FxErr where
  | NilOutput : FxErr
  | NoValueInput : FxErr
  | OwnersErr : FxErr
deriving DecidableEq, Repr

/-- Amount (part_000 line 23): returns the Amt field. -/
def TransferOutput.Amount (out : TransferOutput) : Nat := out.Amt

/-- Verify (part_000 lines 26–35): nil receiver, then zero amount, then
OutputOwners.Verify, in that order; `none` plays Go's nil error. -/
def TransferOutput.Verify (out : Option TransferOutput) : Option FxErr :=
  match out with
  | none => some .NilOutput
  | some o =>
    if o.Amt = 0 then some .NoValueInput
    else if o.owners.verifyErr then some .OwnersErr
    else none

/-- C9: TransferOutput.Verify returns a non-nil error exactly when the
receiver is nil, the amount is zero, or OutputOwners.Verify errs; a
zero-amount output is never valid; Amount returns Amt unchanged. -/
theorem C9_transfer_output_verify (out : Option TransferOutput) :
    (TransferOutput.Verify out ≠ none ↔
      out = none ∨ ∃ o, out = some o ∧
        (o.Amt = 0 ∨ o.owners.verifyErr = true)) ∧
    (∀ o : TransferOutput, o.Amt = 0 →
      TransferOutput.Verify (some o) ≠ none) ∧
    (∀ o : TransferOutput, TransferOutput.Amount o = o.Amt) := by
  refine ⟨?_, ?_, fun o => rfl⟩
  · cases out with
    | none => simp [TransferOutput.Verify]
    | some o =>
      by_cases h0 : o.Amt = 0
      · simp [TransferOutput.Verify, h0]
      · by_cases h1 : o.owners.verifyErr
        · simp [TransferOutput.Verify, h0, h1]
        · simp [TransferOutput.Verify, h0, h1]
  · intro o h0
    simp [TransferOutput.Verify, h0]

/-! ## platformvm Service.SampleValidators (src/vms/platformvm/service.go) -/

/-- A validator, reduced to its ShortID (the handler only reads IDs). -/
structure Vdr where
  vid : Nat
deriving DecidableEq, Repr

/-- Environment of the handler: the default subnet id, the validator-set
registry (GetValidatorSet) and the sampler (validators.Sample), whose
implementations live outside the provided sources. -/
structure SVEnv where
  defaultSubnetID : Nat
  getValidatorSet : Nat → Option (List Vdr)
  sample : List Vdr → Nat → List Vdr

/-- Errors SampleValidators can return (service.go lines 252–258). -/
inductive SVErr where
  | UnknownSubnet : SVErr
  | InsufficientValidators : SVErr
deriving DecidableEq, Repr

/-- SortShortIDs modelled as an insertion sort on the ids. -/
def sortShortIDs (l : List Nat) : List Nat :=
  l.insertionSort (· ≤ ·)

/-- SampleValidators (service.go lines 244–268): default the subnet id
when zero, look the validator set up, sample Size validators, error when
the sample is not of size Size, otherwise reply with the sorted sampled
ids.  The reply field is `none` exactly while unset. -/
def sampleValidators (env : SVEnv) (size : Nat) (subnetID : Nat) :
    Option SVErr × Option (List Nat) :=
  let sid := if subnetID = 0 then env.defaultSubnetID else subnetID
  match env.getValidatorSet sid with
  | none => (some .UnknownSubnet, none)
  | some vset =>
    let sample := env.sample vset size
    if sample.length ≠ size then (some .InsufficientValidators, none)
    else (none, some (sortShortIDs (sample.map (·.vid))))

/-- C10: on success the reply holds exactly `size` ids — the sampled ids,
sorted ascending (strictly, when the sample has no duplicate ids) — and
the error is nil; when the subnet is unknown or the sample is smaller
than requested the handler errs and leaves the reply unset. -/
theorem C10_sample_validators (env : SVEnv) (size subnetID : Nat) :
    (∀ l, sampleValidators env size subnetID = (none, some l) →
      l.length = size ∧ l.Sorted (· ≤ ·) ∧
      l.Perm ((env.sample ((env.getValidatorSet
        (if subnetID = 0 then env.defaultSubnetID else subnetID)).getD [])
        size).map (·.vid)) ∧
      (l.Nodup → l.Sorted (· < ·))) ∧
    (env.getValidatorSet
        (if subnetID = 0 then env.defaultSubnetID else subnetID) = none →
      sampleValidators env size subnetID = (some SVErr.UnknownSubnet, none)) ∧
    (∀ vset, env.getValidatorSet
        (if subnetID = 0 then env.defaultSubnetID else subnetID) = some vset →
      (env.sample vset size).length < size →
      sampleValidators env size subnetID =
        (some SVErr.InsufficientValidators, none)) := by
  refine ⟨?_, ?_, ?_⟩
  · intro l hl
    cases hv : env.getValidatorSet
        (if subnetID = 0 then env.defaultSubnetID else subnetID) with
    | none => simp [sampleValidators, hv] at hl
    | some vset =>
      by_cases hlen : (env.sample vset size).length ≠ size
      · simp [sampleValidators, hv, hlen] at hl
      · push_neg at hlen
        have hl' : l = sortShortIDs ((env.sample vset size).map (·.vid)) := by
          simp [sampleValidators, hv, hlen] at hl
          exact hl.symm
        subst hl'
        have hperm : (sortShortIDs ((env.sample vset size).map (·.vid))).Perm
            ((env.sample vset size).map (·.vid)) :=
          List.perm_insertionSort (· ≤ ·) _
        have hsorted : (sortShortIDs
            ((env.sample vset size).map (·.vid))).Sorted (· ≤ ·) :=
          List.sorted_insertionSort (· ≤ ·) _
        refine ⟨?_, hsorted, by simpa [hv] using hperm, ?_⟩
        · rw [hperm.length_eq]
          simp [hlen]
        · intro hnd
          exact hsorted.lt_of_le hnd
  · intro hv
    simp [sampleValidators, hv]
  · intro vset hv hlen
    have hne : (env.sample vset size).length ≠ size := by omega
    simp [sampleValidators, hv, hne]

/-! ## Frame lemmas for RecordVotes -/

theorem view_setN {α : Type} (view : ANode → α) (l : List (Nat × ANode))
    (i : Nat) (f : ANode → ANode) (hf : ∀ nd, view (f nd) = view nd)
    (j : Nat) : (getN (setN l i f) j).map view = (getN l j).map view := by
  by_cases hj : j = i
  · subst hj
    rw [getN_setN_self]
    cases getN l j <;> simp [hf]
  · rw [getN_setN_ne l i f j hj]

theorem view_setN_ne {α : Type} (view : ANode → α) (l : List (Nat × ANode))
    (i : Nat) (f : ANode → ANode) (j : Nat) (hj : j ≠ i) :
    (getN (setN l i f) j).map view = (getN l j).map view := by
  rw [getN_setN_ne l i f j hj]

theorem view_mapN {α : Type} (view : ANode → α) (l : List (Nat × ANode))
    (g : Nat → ANode → ANode) (hg : ∀ i nd, view (g i nd) = view nd)
    (j : Nat) : (getN (mapN l g) j).map view = (getN l j).map view := by
  rw [getN_mapN]
  cases getN l j <;> simp [hg]

theorem childIds_setN (s : EState) (i : Nat) (f : ANode → ANode)
    (hf : ∀ nd, (f nd).parent = nd.parent) (la r : Nat) :
    childIds { nodes := setN s.nodes i f, lastAccepted := la } r =
      childIds s r :=
  childIds_mapN s _ (fun j nd => if j = i then f nd else nd) rfl
    (fun j nd => by by_cases hj : j = i <;> simp [hj, hf]) r

theorem cascade_fun_parent (s : EState) (w p i : Nat) (nd : ANode) :
    (if i = w then { nd with status := BStatus.Accepted }
     else if ((childIds s p).filter (fun c => c ≠ w)).any
         (fun sb => sb ∈ upChain s i) then
       { nd with status := BStatus.Rejected }
     else nd).parent = nd.parent := by
  split_ifs <;> rfl

theorem childIds_acceptCascade (s : EState) (w p r : Nat) :
    childIds (acceptCascade s w p) r = childIds s r :=
  childIds_mapN s (acceptCascade s w p)
    (fun i nd => if i = w then { nd with status := BStatus.Accepted }
      else if ((childIds s p).filter (fun c => c ≠ w)).any
          (fun sb => sb ∈ upChain s i) then
        { nd with status := BStatus.Rejected }
      else nd)
    rfl (fun i nd => cascade_fun_parent s w p i nd) r

/-- No sibling of the frontier is an ancestor-or-self of any Accepted
node: acceptance cascades never touch the accepted chain. -/
theorem cascade_any_false {s : EState} (hinv : Inv s) (w j : Nat)
    (ndj : ANode) (hj : getN s.nodes j = some ndj)
    (hjacc : ndj.status = BStatus.Accepted) :
    (((childIds s s.lastAccepted).filter (fun c => c ≠ w)).any
      (fun sb => sb ∈ upChain s j)) = false := by
  rw [List.any_eq_false]
  intro sb hsb
  simp only [decide_eq_true_eq]
  intro hmem
  rw [List.mem_filter] at hsb
  obtain ⟨hmemc, _⟩ := hsb
  obtain ⟨ndsb, hmem2, hpar⟩ := (mem_childIds s s.lastAccepted sb).mp hmemc
  have hget := getN_of_mem s.nodes sb ndsb hinv.nodup hmem2
  obtain ⟨ndsb', hget', hacc'⟩ :=
    chain_accepted hinv s.nodes.length j ndj hj hjacc sb hmem
  have heq : ndsb' = ndsb := Option.some.inj (hget'.symm.trans hget)
  rw [heq] at hacc'
  exact no_accepted_child_of_frontier hinv sb ndsb hget hpar hacc'

/-- Decided nodes keep their status across an acceptance cascade at the
frontier. -/
theorem acceptCascade_status {s : EState} (hinv : Inv s) (w : Nat)
    (wnd : ANode) (hwn : getN s.nodes w = some wnd)
    (hwst : wnd.status = BStatus.Processing) (j : Nat) (ndj : ANode)
    (hj : getN s.nodes j = some ndj) (hst : ndj.status ≠ BStatus.Processing) :
    statusOf (acceptCascade s w s.lastAccepted) j = some ndj.status := by
  have hjw : j ≠ w := by
    intro hc
    rw [hc] at hj
    have : ndj = wnd := Option.some.inj (hj.symm.trans hwn)
    exact hst (this ▸ hwst)
  unfold statusOf
  rw [acceptCascade_getN_eval s w s.lastAccepted j ndj hj, if_neg hjw]
  cases hstv : ndj.status with
  | Processing => exact absurd hstv hst
  | Accepted =>
    rw [cascade_any_false hinv w j ndj hj hstv, if_neg (by simp)]
    simp [hstv]
  | Rejected =>
    by_cases hrej : (((childIds s s.lastAccepted).filter (fun c => c ≠ w)).any
        (fun sb => sb ∈ upChain s j)) = true
    · rw [if_pos hrej]
      simp [hstv]
    · rw [if_neg hrej]
      simp [hstv]

/-- Case analysis on one conflict-set round step: it is the identity, or
there is a Processing winner with parent q and the step is a confidence
bump, a preference switch, or a confidence bump followed by the
acceptance cascade (the last only when q is the frontier). -/
theorem processSet_shape (pr : Params) (t : List (Nat × Nat)) (s : EState)
    (q : Nat) (hnd : (s.nodes.map Prod.fst).Nodup) :
    processSet pr t s q = s ∨
    (∃ w wnd, getN s.nodes w = some wnd ∧
      wnd.status = BStatus.Processing ∧ wnd.parent = some q ∧
      (processSet pr t s q =
          { s with nodes := setN s.nodes w (fun nd =>
              { nd with confidence := wnd.confidence + 1,
                        numSuccesses := nd.numSuccesses + 1 }) } ∨
       processSet pr t s q =
          { s with nodes := setN (setN s.nodes w (fun nd =>
                      { nd with confidence := 1,
                                numSuccesses := nd.numSuccesses + 1 })) q
                      (fun nd => { nd with lastPollPreference := some w }) } ∨
       (q = s.lastAccepted ∧
        processSet pr t s q = acceptCascade
          { s with nodes := setN s.nodes w (fun nd =>
              { nd with confidence := wnd.confidence + 1,
                        numSuccesses := nd.numSuccesses + 1 }) } w q))) := by
  cases hw0 : findWinner pr s t (childIds s q) with
  | none =>
    left
    simp [processSet, hw0]
  | some w =>
    have hwmem : w ∈ childIds s q := List.mem_of_find?_eq_some hw0
    have hwpred := List.find?_some hw0
    obtain ⟨ndw, hmem0, hpar0⟩ := (mem_childIds s q w).mp hwmem
    have hwn : getN s.nodes w = some ndw := getN_of_mem s.nodes w ndw hnd hmem0
    have hwproc : ndw.status = BStatus.Processing := by
      simp [isProcessingB, hwn] at hwpred
      exact hwpred.1
    cases hpn : getN s.nodes q with
    | none =>
      left
      simp [processSet, hw0, hpn]
    | some pnd =>
      right
      refine ⟨w, ndw, hwn, hwproc, hpar0, ?_⟩
      by_cases hpref : pnd.lastPollPreference = some w
      · by_cases hcond : pr.Beta ≤ ndw.confidence + 1 ∧ q = s.lastAccepted
        · right
          right
          refine ⟨hcond.2, ?_⟩
          simp only [processSet, hw0, hpn, hwn]
          rw [if_pos hpref, if_pos hcond]
        · left
          simp only [processSet, hw0, hpn, hwn]
          rw [if_pos hpref, if_neg hcond]
      · right
        left
        simp only [processSet, hw0, hpn, hwn]
        rw [if_neg hpref]

/-- Decided (non-Processing) statuses survive one round step: I1's
terminality for a single conflict-set update. -/
theorem processSet_decided_mono (pr : Params) (t : List (Nat × Nat))
    (q : Nat) {s : EState} (hinv : Inv s) (j : Nat) (st : BStatus)
    (hjst : statusOf s j = some st) (hne : st ≠ BStatus.Processing) :
    statusOf (processSet pr t s q) j = some st := by
  rcases processSet_shape pr t s q hinv.nodup with h0 |
    ⟨w, wnd, hwn, hwproc, hwp, hbr⟩
  · rw [h0]
    exact hjst
  · cases hj : getN s.nodes j with
    | none => rw [statusOf, hj] at hjst; exact Option.noConfusion hjst
    | some ndj =>
      have hstj : ndj.status = st := by
        rw [statusOf, hj] at hjst
        exact Option.some.inj hjst
      rcases hbr with h1 | h1 | ⟨hq, h1⟩
      · rw [h1]
        have hsc : SameCore s
            { s with nodes := setN s.nodes w (fun nd =>
                { nd with confidence := wnd.confidence + 1,
                          numSuccesses := nd.numSuccesses + 1 }) } :=
          sameCore_setN s w _ (fun nd => ⟨rfl, rfl, rfl⟩)
        exact (hsc.statusOf_eq j).trans hjst
      · rw [h1]
        have hA : SameCore s
            { s with nodes := setN s.nodes w (fun nd =>
                { nd with confidence := 1,
                          numSuccesses := nd.numSuccesses + 1 }) } :=
          sameCore_setN s w _ (fun nd => ⟨rfl, rfl, rfl⟩)
        have hB := sameCore_setN
            { s with nodes := setN s.nodes w (fun nd =>
                { nd with confidence := 1,
                          numSuccesses := nd.numSuccesses + 1 }) } q
            (fun nd => { nd with lastPollPreference := some w })
            (fun nd => ⟨rfl, rfl, rfl⟩)
        exact ((sameCore_trans hA hB).statusOf_eq j).trans hjst
      · have hsc : SameCore s
            { s with nodes := setN s.nodes w (fun nd =>
                { nd with confidence := wnd.confidence + 1,
                          numSuccesses := nd.numSuccesses + 1 }) } :=
          sameCore_setN s w _ (fun nd => ⟨rfl, rfl, rfl⟩)
        have hinv1 := inv_of_sameCore hinv hsc
        obtain ⟨wnd1, hw1, hw1p, _, hw1st⟩ := hsc.getN_some w wnd hwn
        obtain ⟨ndj1, hj1, _, _, hj1st⟩ := hsc.getN_some j ndj hj
        rw [h1, hq]
        have key := acceptCascade_status hinv1 w wnd1 hw1
          (hw1st ▸ hwproc) j ndj1 hj1
          (by rw [hj1st, hstj]; exact hne)
        refine key.trans ?_
        rw [hj1st, hstj]

/-- One round step either leaves every status unchanged or newly accepts
a Processing block. -/
theorem processSet_status_cases (pr : Params) (t : List (Nat × Nat))
    (q : Nat) {s : EState} (hinv : Inv s) :
    (∀ j, statusOf (processSet pr t s q) j = statusOf s j) ∨
    (∃ w, statusOf s w = some BStatus.Processing ∧
      statusOf (processSet pr t s q) w = some BStatus.Accepted) := by
  rcases processSet_shape pr t s q hinv.nodup with h0 |
    ⟨w, wnd, hwn, hwproc, hwp, hbr⟩
  · left
    intro j
    rw [h0]
  · rcases hbr with h1 | h1 | ⟨hq, h1⟩
    · left
      intro j
      rw [h1]
      have hsc : SameCore s
          { s with nodes := setN s.nodes w (fun nd =>
              { nd with confidence := wnd.confidence + 1,
                        numSuccesses := nd.numSuccesses + 1 }) } :=
        sameCore_setN s w _ (fun nd => ⟨rfl, rfl, rfl⟩)
      exact hsc.statusOf_eq j
    · left
      intro j
      rw [h1]
      have hA : SameCore s
          { s with nodes := setN s.nodes w (fun nd =>
              { nd with confidence := 1,
                        numSuccesses := nd.numSuccesses + 1 }) } :=
        sameCore_setN s w _ (fun nd => ⟨rfl, rfl, rfl⟩)
      have hB := sameCore_setN
          { s with nodes := setN s.nodes w (fun nd =>
              { nd with confidence := 1,
                        numSuccesses := nd.numSuccesses + 1 }) } q
          (fun nd => { nd with lastPollPreference := some w })
          (fun nd => ⟨rfl, rfl, rfl⟩)
      exact (sameCore_trans hA hB).statusOf_eq j
    · right
      have hsc : SameCore s
          { s with nodes := setN s.nodes w (fun nd =>
              { nd with confidence := wnd.confidence + 1,
                        numSuccesses := nd.numSuccesses + 1 }) } :=
        sameCore_setN s w _ (fun nd => ⟨rfl, rfl, rfl⟩)
      obtain ⟨wnd1, hw1, _, _, hw1st⟩ := hsc.getN_some w wnd hwn
      refine ⟨w, by rw [statusOf, hwn]; simp [hwproc], ?_⟩
      rw [h1, hq, statusOf,
        acceptCascade_getN_eval _ w _ w wnd1 hw1, if_pos rfl]
      rfl

/-- Decided statuses survive any sequence of round steps. -/
theorem foldl_decided_mono (pr : Params) (t : List (Nat × Nat)) :
    ∀ (l : List Nat) {s : EState}, Inv s → ∀ (j : Nat) (st : BStatus),
      statusOf s j = some st → st ≠ BStatus.Processing →
      statusOf (l.foldl (processSet pr t) s) j = some st := by
  intro l
  induction l with
  | nil => intro s _ j st h _; exact h
  | cons q r ih =>
    intro s hinv j st h hne
    rw [List.foldl_cons]
    exact ih (inv_processSet pr t hinv q) j st
      (processSet_decided_mono pr t q hinv j st h hne) hne

/-- A sequence of round steps either leaves every status unchanged or
newly accepts some block. -/
theorem foldl_status_quo (pr : Params) (t : List (Nat × Nat)) :
    ∀ (l : List Nat) {s : EState}, Inv s →
      (∀ j, statusOf (l.foldl (processSet pr t) s) j = statusOf s j) ∨
      (∃ i, statusOf (l.foldl (processSet pr t) s) i = some BStatus.Accepted ∧
        statusOf s i ≠ some BStatus.Accepted) := by
  intro l
  induction l with
  | nil =>
    intro s _
    left
    intro j
    rfl
  | cons q r ih =>
    intro s hinv
    have hinv' := inv_processSet pr t hinv q
    rcases processSet_status_cases pr t q hinv with hstep | ⟨w, hproc, haccw⟩
    · rcases ih hinv' with hrest | ⟨i, hacc, hnot⟩
      · left
        intro j
        rw [List.foldl_cons, hrest j, hstep j]
      · right
        refine ⟨i, by rw [List.foldl_cons]; exact hacc, fun hc => ?_⟩
        exact hnot (by rw [hstep i]; exact hc)
    · right
      refine ⟨w, ?_, ?_⟩
      · rw [List.foldl_cons]
        exact foldl_decided_mono pr t r hinv' w BStatus.Accepted haccw
          (by simp)
      · rw [hproc]
        simp

/-- When a RecordVotes call accepts no new block, it changes no status at
all. -/
theorem recordVotes_status_quo (pr : Params) (t : List (Nat × Nat))
    {s : EState} (hinv : Inv s)
    (hnoacc : ∀ i, statusOf (recordVotes pr s t).2 i = some BStatus.Accepted →
      statusOf s i = some BStatus.Accepted) (j : Nat) :
    statusOf (recordVotes pr s t).2 j = statusOf s j := by
  by_cases hc : t.any (fun e => (getN s.nodes e.1).isNone)
  · simp [recordVotes, hc]
  · simp only [recordVotes, if_neg hc] at hnoacc ⊢
    rcases foldl_status_quo pr t (touched s t) hinv with h | ⟨i, hacc, hnot⟩
    · exact h j
    · exact absurd (hnoacc i hacc) hnot

theorem cascade_fun_pref (s : EState) (w p i : Nat) (nd : ANode) :
    (if i = w then { nd with status := BStatus.Accepted }
     else if ((childIds s p).filter (fun c => c ≠ w)).any
         (fun sb => sb ∈ upChain s i) then
       { nd with status := BStatus.Rejected }
     else nd).lastPollPreference = nd.lastPollPreference := by
  split_ifs <;> rfl

theorem cascade_fun_conf (s : EState) (w p i : Nat) (nd : ANode) :
    (if i = w then { nd with status := BStatus.Accepted }
     else if ((childIds s p).filter (fun c => c ≠ w)).any
         (fun sb => sb ∈ upChain s i) then
       { nd with status := BStatus.Rejected }
     else nd).confidence = nd.confidence := by
  split_ifs <;> rfl

/-- Frame of a no-quorum conflict set under any sequence of round steps:
its parent's preference and its members' confidences never move. -/
theorem foldl_frameAt (pr : Params) (t : List (Nat × Nat)) (p : Nat)
    (s0 : EState) (hall : ∀ c ∈ childIds s0 p, tallyGet t c < pr.Alpha) :
    ∀ (l : List Nat) (s : EState), Inv s →
      (∀ r, childIds s r = childIds s0 r) →
      (∀ j, (getN s.nodes j).map (fun nd => nd.parent) =
        (getN s0.nodes j).map (fun nd => nd.parent)) →
      prefOf s p = prefOf s0 p →
      (∀ c nd, getN s0.nodes c = some nd → nd.parent = some p →
        confOf s c = confOf s0 c) →
      prefOf (l.foldl (processSet pr t) s) p = prefOf s0 p ∧
      (∀ c nd, getN s0.nodes c = some nd → nd.parent = some p →
        confOf (l.foldl (processSet pr t) s) c = confOf s0 c) := by
  intro l
  induction l with
  | nil =>
    intro s _ _ _ hpref hconf
    exact ⟨hpref, hconf⟩
  | cons q r ih =>
    intro s hinv hcid hpv hpref hconf
    rw [List.foldl_cons]
    have hinv' := inv_processSet pr t hinv q
    by_cases hqp : q = p
    · subst hqp
      have hnone : findWinner pr s t (childIds s q) = none := by
        rw [findWinner, List.find?_eq_none]
        intro c hc hcontra
        rw [Bool.and_eq_true] at hcontra
        have h2 := of_decide_eq_true hcontra.2
        have h3 := hall c (by rw [← hcid q]; exact hc)
        omega
      rw [show processSet pr t s q = s by simp [processSet, hnone]]
      exact ih s hinv hcid hpv hpref hconf
    · rcases processSet_shape pr t s q hinv.nodup with h0 |
        ⟨w, wnd, hwn, hwproc, hwp, hbr⟩
      · rw [h0]
        exact ih s hinv hcid hpv hpref hconf
      · have hcw : ∀ c nd, getN s0.nodes c = some nd → nd.parent = some p →
            c ≠ w := by
          intro c nd hc hcp hceq
          subst hceq
          have hv := hpv c
          rw [hwn, hc] at hv
          simp at hv
          rw [hwp, hcp] at hv
          exact hqp (Option.some.inj hv)
        rcases hbr with h1 | h1 | ⟨hq, h1⟩
        · rw [h1]
          refine ih _ (h1 ▸ hinv') ?_ ?_ ?_ ?_
          · intro r'
            exact (childIds_setN s w (fun nd =>
              { nd with confidence := wnd.confidence + 1,
                        numSuccesses := nd.numSuccesses + 1 })
              (fun nd => rfl) s.lastAccepted r').trans (hcid r')
          · intro j
            exact (view_setN (fun nd => nd.parent) s.nodes w (fun nd =>
              { nd with confidence := wnd.confidence + 1,
                        numSuccesses := nd.numSuccesses + 1 })
              (fun nd => rfl) j).trans (hpv j)
          · exact (view_setN (fun nd => nd.lastPollPreference) s.nodes w
              (fun nd =>
                { nd with confidence := wnd.confidence + 1,
                          numSuccesses := nd.numSuccesses + 1 })
              (fun nd => rfl) p).trans hpref
          · intro c nd hc hcp
            exact (view_setN_ne (fun nd => nd.confidence) s.nodes w
              (fun nd =>
                { nd with confidence := wnd.confidence + 1,
                          numSuccesses := nd.numSuccesses + 1 }) c
              (hcw c nd hc hcp)).trans (hconf c nd hc hcp)
        · rw [h1]
          refine ih _ (h1 ▸ hinv') ?_ ?_ ?_ ?_
          · intro r'
            refine (childIds_setN
              { s with nodes := setN s.nodes w (fun nd =>
                  { nd with confidence := 1,
                            numSuccesses := nd.numSuccesses + 1 }) } q
              (fun nd => { nd with lastPollPreference := some w })
              (fun nd => rfl) s.lastAccepted r').trans ?_
            exact (childIds_setN s w (fun nd =>
              { nd with confidence := 1,
                        numSuccesses := nd.numSuccesses + 1 })
              (fun nd => rfl) s.lastAccepted r').trans (hcid r')
          · intro j
            refine (view_setN (fun nd => nd.parent)
              (setN s.nodes w (fun nd =>
                { nd with confidence := 1,
                          numSuccesses := nd.numSuccesses + 1 })) q
              (fun nd => { nd with lastPollPreference := some w })
              (fun nd => rfl) j).trans ?_
            exact (view_setN (fun nd => nd.parent) s.nodes w (fun nd =>
              { nd with confidence := 1,
                        numSuccesses := nd.numSuccesses + 1 })
              (fun nd => rfl) j).trans (hpv j)
          · refine (view_setN_ne (fun nd => nd.lastPollPreference)
              (setN s.nodes w (fun nd =>
                { nd with confidence := 1,
                          numSuccesses := nd.numSuccesses + 1 })) q
              (fun nd => { nd with lastPollPreference := some w }) p
              (fun hpq => hqp hpq.symm)).trans ?_
            exact (view_setN (fun nd => nd.lastPollPreference) s.nodes w
              (fun nd =>
                { nd with confidence := 1,
                          numSuccesses := nd.numSuccesses + 1 })
              (fun nd => rfl) p).trans hpref
          · intro c nd hc hcp
            refine (view_setN (fun nd => nd.confidence)
              (setN s.nodes w (fun nd =>
                { nd with confidence := 1,
                          numSuccesses := nd.numSuccesses + 1 })) q
              (fun nd => { nd with lastPollPreference := some w })
              (fun nd => rfl) c).trans ?_
            exact (view_setN_ne (fun nd => nd.confidence) s.nodes w
              (fun nd =>
                { nd with confidence := 1,
                          numSuccesses := nd.numSuccesses + 1 }) c
              (hcw c nd hc hcp)).trans (hconf c nd hc hcp)
        · rw [h1]
          set sm : EState :=
            { s with nodes := setN s.nodes w (fun nd =>
                { nd with confidence := wnd.confidence + 1,
                          numSuccesses := nd.numSuccesses + 1 }) } with hsm
          refine ih _ (h1 ▸ hinv') ?_ ?_ ?_ ?_
          · intro r'
            refine (childIds_acceptCascade sm w q r').trans ?_
            exact (childIds_setN s w (fun nd =>
              { nd with confidence := wnd.confidence + 1,
                        numSuccesses := nd.numSuccesses + 1 })
              (fun nd => rfl) s.lastAccepted r').trans (hcid r')
          · intro j
            refine (view_mapN (fun nd => nd.parent) sm.nodes
              (fun i nd => if i = w then { nd with status := BStatus.Accepted }
                else if ((childIds sm q).filter (fun c => c ≠ w)).any
                    (fun sb => sb ∈ upChain sm i) then
                  { nd with status := BStatus.Rejected }
                else nd)
              (fun i nd => cascade_fun_parent sm w q i nd) j).trans ?_
            exact (view_setN (fun nd => nd.parent) s.nodes w (fun nd =>
              { nd with confidence := wnd.confidence + 1,
                        numSuccesses := nd.numSuccesses + 1 })
              (fun nd => rfl) j).trans (hpv j)
          · refine (view_mapN (fun nd => nd.lastPollPreference) sm.nodes
              (fun i nd => if i = w then { nd with status := BStatus.Accepted }
                else if ((childIds sm q).filter (fun c => c ≠ w)).any
                    (fun sb => sb ∈ upChain sm i) then
                  { nd with status := BStatus.Rejected }
                else nd)
              (fun i nd => cascade_fun_pref sm w q i nd) p).trans ?_
            exact (view_setN (fun nd => nd.lastPollPreference) s.nodes w
              (fun nd =>
                { nd with confidence := wnd.confidence + 1,
                          numSuccesses := nd.numSuccesses + 1 })
              (fun nd => rfl) p).trans hpref
          · intro c nd hc hcp
            refine (view_mapN (fun nd => nd.confidence) sm.nodes
              (fun i nd => if i = w then { nd with status := BStatus.Accepted }
                else if ((childIds sm q).filter (fun c => c ≠ w)).any
                    (fun sb => sb ∈ upChain sm i) then
                  { nd with status := BStatus.Rejected }
                else nd)
              (fun i nd => cascade_fun_conf sm w q i nd) c).trans ?_
            exact (view_setN_ne (fun nd => nd.confidence) s.nodes w
              (fun nd =>
                { nd with confidence := wnd.confidence + 1,
                          numSuccesses := nd.numSuccesses + 1 }) c
              (hcw c nd hc hcp)).trans (hconf c nd hc hcp)

/-! ## C5: status-quo on no-quorum -/

def blkB : Blk := { id := 3, parent := 2 }

/-- Four A1-winning rounds, then a grandchild B (id 3) added under A2. -/
def sC : EState := (addBlock (sR 4) blkB).2

/-- Tally giving A1 quorum and B (a member of A2's conflict set) only 4
votes. -/
def tC : List (Nat × Nat) := [(1, 16), (3, 4)]

theorem reach_sC : Reachable pr20 sC :=
  Reachable.add _ blkB (reach_sR 4)

/-- Counterexample to C5 as frozen: in sC the conflict set under parent 2
has sole member 3 with 4 < 15 votes — no quorum — yet the call (which
accepts A1 in another conflict set and cascades) changes member 3's
status from Processing to Rejected. -/
theorem C5_counterexample :
    (∀ c ∈ childIds sC 2, tallyGet tC c < pr20.Alpha) ∧
    statusOf sC 3 = some BStatus.Processing ∧
    (recordVotes pr20 sC tC).1 = none ∧
    statusOf (recordVotes pr20 sC tC).2 3 = some BStatus.Rejected := by
  decide

/-- C5 (amended): a tally in which no member of a conflict set reaches
Alpha leaves that set's lastPollPreference (stored at the parent) and
every member's confidence unchanged; the members' statuses are unchanged
as well provided the call accepts no new block (absent an acceptance
cascade from another conflict set). -/
theorem C5_no_quorum_frame (pr : Params) (t : List (Nat × Nat))
    (s : EState) (p : Nat) (h : Reachable pr s)
    (hall : ∀ c ∈ childIds s p, tallyGet t c < pr.Alpha) :
    prefOf (recordVotes pr s t).2 p = prefOf s p ∧
    (∀ c nd, getN s.nodes c = some nd → nd.parent = some p →
      confOf (recordVotes pr s t).2 c = confOf s c) ∧
    ((∀ i, statusOf (recordVotes pr s t).2 i = some BStatus.Accepted →
        statusOf s i = some BStatus.Accepted) →
      ∀ c ∈ childIds s p, statusOf (recordVotes pr s t).2 c = statusOf s c) := by
  have hinv := inv_reachable pr s h
  by_cases hc : t.any (fun e => (getN s.nodes e.1).isNone)
  · simp [recordVotes, hc]
  · simp only [recordVotes, if_neg hc]
    obtain ⟨hpref, hconf⟩ := foldl_frameAt pr t p s hall (touched s t) s hinv
      (fun r => rfl) (fun j => rfl) rfl (fun c nd _ _ => rfl)
    refine ⟨hpref, hconf, ?_⟩
    intro hnoacc c _
    rcases foldl_status_quo pr t (touched s t) hinv with hq | ⟨i, hacc, hnot⟩
    · exact hq c
    · exact absurd (hnoacc i hacc) hnot

/-- Witness for the amended C5: in sC's no-quorum conflict set under A2,
the call leaves A2's preference and B's confidence unchanged. -/
theorem C5_no_quorum_frame_witness :
    (∀ c ∈ childIds sC 2, tallyGet tC c < pr20.Alpha) ∧
    (prefOf (recordVotes pr20 sC tC).2 2 = prefOf sC 2 ∧
     (∀ c nd, getN sC.nodes c = some nd → nd.parent = some 2 →
       confOf (recordVotes pr20 sC tC).2 c = confOf sC c) ∧
     ((∀ i, statusOf (recordVotes pr20 sC tC).2 i = some BStatus.Accepted →
         statusOf sC i = some BStatus.Accepted) →
       ∀ c ∈ childIds sC 2,
         statusOf (recordVotes pr20 sC tC).2 c = statusOf sC c)) :=
  ⟨by decide,
    C5_no_quorum_frame pr20 tC sC 2 reach_sC (by decide)⟩

/-! ## C7: unknown candidates and decided candidates -/

theorem touched_filter (s : EState) (t : List (Nat × Nat)) :
    touched s (t.filter (fun e => isProcessingB s e.1)) = touched s t := by
  unfold touched
  congr 1
  induction t with
  | nil => rfl
  | cons e r ih =>
    by_cases hp : isProcessingB s e.1 = true
    · rw [List.filter_cons, if_pos hp]
      cases hg : getN s.nodes e.1 with
      | none => simp [isProcessingB, hg] at hp
      | some nd =>
        have hst : nd.status = BStatus.Processing := by
          simp [isProcessingB, hg] at hp
          exact hp
        simp only [List.filterMap_cons, hg, hst]
        rw [ih]
    · rw [List.filter_cons, if_neg hp]
      cases hg : getN s.nodes e.1 with
      | none =>
        simp only [List.filterMap_cons, hg]
        exact ih
      | some nd =>
        have hst : ¬ nd.status = BStatus.Processing := by
          intro hcon
          exact hp (by simp [isProcessingB, hg, hcon])
        simp only [List.filterMap_cons, hg, if_neg hst]
        exact ih

theorem tallyGet_filter (s : EState) (t : List (Nat × Nat)) (c : Nat)
    (hc : isProcessingB s c = true) :
    tallyGet (t.filter (fun e => isProcessingB s e.1)) c = tallyGet t c := by
  induction t with
  | nil => rfl
  | cons e r ih =>
    by_cases he : e.1 = c
    · have hp : isProcessingB s e.1 = true := he ▸ hc
      rw [List.filter_cons, if_pos hp]
      simp [tallyGet, he]
    · by_cases hp : isProcessingB s e.1 = true
      · rw [List.filter_cons, if_pos hp]
        simp only [tallyGet, if_neg he]
        exact ih
      · rw [List.filter_cons, if_neg hp]
        rw [show tallyGet (e :: r) c = tallyGet r c by simp [tallyGet, he]]
        exact ih

theorem acceptCascade_keys (s : EState) (w p : Nat) :
    (acceptCascade s w p).nodes.map Prod.fst = s.nodes.map Prod.fst := by
  simp [acceptCascade, keys_mapN]

theorem processSet_keys (pr : Params) (t : List (Nat × Nat)) (q : Nat)
    {s : EState} (hnd : (s.nodes.map Prod.fst).Nodup) :
    (processSet pr t s q).nodes.map Prod.fst = s.nodes.map Prod.fst := by
  rcases processSet_shape pr t s q hnd with h0 |
    ⟨w, wnd, hwn, hwproc, hwp, hbr⟩
  · rw [h0]
  · rcases hbr with h1 | h1 | ⟨hq, h1⟩
    · rw [h1]
      exact keys_setN s.nodes w (fun nd =>
        { nd with confidence := wnd.confidence + 1,
                  numSuccesses := nd.numSuccesses + 1 })
    · rw [h1]
      exact (keys_setN (setN s.nodes w (fun nd =>
          { nd with confidence := 1,
                    numSuccesses := nd.numSuccesses + 1 })) q
          (fun nd => { nd with lastPollPreference := some w })).trans
        (keys_setN s.nodes w (fun nd =>
          { nd with confidence := 1,
                    numSuccesses := nd.numSuccesses + 1 }))
    · rw [h1]
      exact (acceptCascade_keys _ w q).trans
        (keys_setN s.nodes w (fun nd =>
          { nd with confidence := wnd.confidence + 1,
                    numSuccesses := nd.numSuccesses + 1 }))

theorem processSet_processing_back (pr : Params) (t : List (Nat × Nat))
    (q : Nat) {s : EState} (hinv : Inv s) (j : Nat)
    (h : isProcessingB (processSet pr t s q) j = true) :
    isProcessingB s j = true := by
  cases hg : getN s.nodes j with
  | none =>
    have hkeys := processSet_keys pr t q hinv.nodup
    have : getN (processSet pr t s q).nodes j = none := by
      rw [getN_eq_none_iff, hkeys]
      exact (getN_eq_none_iff s.nodes j).mp hg
    simp [isProcessingB, this] at h
  | some nd =>
    by_cases hst : nd.status = BStatus.Processing
    · simp [isProcessingB, hg, hst]
    · have := processSet_decided_mono pr t q hinv j nd.status
        (by simp [statusOf, hg]) hst
      unfold statusOf at this
      cases hg2 : getN (processSet pr t s q).nodes j with
      | none => rw [hg2] at this; simp at this
      | some nd2 =>
        rw [hg2] at this
        simp at this
        simp [isProcessingB, hg2, this] at h
        exact absurd h hst

theorem foldl_processing_back (pr : Params) (t : List (Nat × Nat)) :
    ∀ (l : List Nat) {s : EState}, Inv s → ∀ j,
      isProcessingB (l.foldl (processSet pr t) s) j = true →
      isProcessingB s j = true := by
  intro l
  induction l with
  | nil => intro s _ j h; exact h
  | cons q r ih =>
    intro s hinv j h
    rw [List.foldl_cons] at h
    exact processSet_processing_back pr t q hinv j
      (ih (inv_processSet pr t hinv q) j h)

theorem processSet_tally_filter (pr : Params) (t : List (Nat × Nat))
    {s s' : EState} (q : Nat)
    (hback : ∀ c, isProcessingB s' c = true → isProcessingB s c = true) :
    processSet pr (t.filter (fun e => isProcessingB s e.1)) s' q =
      processSet pr t s' q := by
  have hfw : findWinner pr s' (t.filter (fun e => isProcessingB s e.1))
      (childIds s' q) = findWinner pr s' t (childIds s' q) := by
    unfold findWinner
    have hfun : (fun c => isProcessingB s' c &&
        decide (pr.Alpha ≤ tallyGet (t.filter
          (fun e => isProcessingB s e.1)) c)) =
        (fun c => isProcessingB s' c && decide (pr.Alpha ≤ tallyGet t c)) := by
      funext c
      by_cases hp : isProcessingB s' c = true
      · rw [tallyGet_filter s t c (hback c hp)]
      · simp only [Bool.not_eq_true] at hp
        rw [hp, Bool.false_and, Bool.false_and]
    rw [hfun]
  simp only [processSet, hfw]

theorem foldl_tally_filter (pr : Params) (t : List (Nat × Nat))
    {s : EState} :
    ∀ (l : List Nat) {s' : EState}, Inv s' →
      (∀ c, isProcessingB s' c = true → isProcessingB s c = true) →
      l.foldl (processSet pr (t.filter (fun e => isProcessingB s e.1))) s' =
        l.foldl (processSet pr t) s' := by
  intro l
  induction l with
  | nil => intro s' _ _; rfl
  | cons q r ih =>
    intro s' hinv' hback
    rw [List.foldl_cons, List.foldl_cons,
      processSet_tally_filter pr t q hback]
    exact ih (inv_processSet pr t hinv' q)
      (fun c hc => hback c (processSet_processing_back pr t q hinv' c hc))

/-- C7: RecordVotes fails with UnknownCandidate exactly when the tally
holds an identity absent from the store, and then the state is returned
unchanged; when all tallied identities are known there is no error, and
deleting the already-decided identities from the tally changes nothing. -/
theorem C7_unknown_candidate (pr : Params) (s : EState)
    (t : List (Nat × Nat)) (h : Reachable pr s) :
    ((recordVotes pr s t).1 = some RVErr.UnknownCandidate ↔
      ∃ e ∈ t, getN s.nodes e.1 = none) ∧
    ((∃ e ∈ t, getN s.nodes e.1 = none) → (recordVotes pr s t).2 = s) ∧
    ((∀ e ∈ t, (getN s.nodes e.1).isSome) →
      (recordVotes pr s t).1 = none ∧
      recordVotes pr s t =
        recordVotes pr s (t.filter (fun e => isProcessingB s e.1))) := by
  have hinv := inv_reachable pr s h
  have hany : (t.any (fun e => (getN s.nodes e.1).isNone)) = true ↔
      ∃ e ∈ t, getN s.nodes e.1 = none := by
    rw [List.any_eq_true]
    constructor
    · intro ⟨e, he, hn⟩
      exact ⟨e, he, by simpa using hn⟩
    · intro ⟨e, he, hn⟩
      exact ⟨e, he, by simpa using hn⟩
  by_cases hc : t.any (fun e => (getN s.nodes e.1).isNone)
  · refine ⟨?_, fun _ => by simp [recordVotes, hc], fun hall => ?_⟩
    · simp only [recordVotes, if_pos hc]
      simpa using hany.mp hc
    · obtain ⟨e, he, hn⟩ := hany.mp hc
      have := hall e he
      rw [hn] at this
      simp at this
  · have hnoex : ¬ ∃ e ∈ t, getN s.nodes e.1 = none := fun hex =>
      hc (hany.mpr hex)
    refine ⟨?_, fun hex => absurd hex hnoex, fun _ => ?_⟩
    · simp only [recordVotes, if_neg hc]
      simpa using hnoex
    · have hc' : ¬ (t.filter (fun e => isProcessingB s e.1)).any
          (fun e => (getN s.nodes e.1).isNone) = true := by
        intro hx
        rw [List.any_eq_true] at hx
        obtain ⟨e, he, hn⟩ := hx
        rw [List.mem_filter] at he
        obtain ⟨_, hp⟩ := he
        cases hg : getN s.nodes e.1 with
        | none => simp [isProcessingB, hg] at hp
        | some nd => simp [hg] at hn
      refine ⟨by simp [recordVotes, hc], ?_⟩
      simp only [recordVotes, if_neg hc, if_neg hc']
      rw [touched_filter s t,
        foldl_tally_filter pr t (touched s t) hinv (fun c hc => hc)]

/-- Witness for C7: a tally naming the unknown identity 7 fails with
UnknownCandidate and leaves sR 5 untouched; the well-formed part behaves
identically with its decided entries removed. -/
theorem C7_unknown_candidate_witness :
    (((recordVotes pr20 (sR 5) [(1, 16), (7, 3)]).1 =
        some RVErr.UnknownCandidate ↔
      ∃ e ∈ [((1 : Nat), (16 : Nat)), (7, 3)],
        getN (sR 5).nodes e.1 = none) ∧
    ((∃ e ∈ [((1 : Nat), (16 : Nat)), (7, 3)],
        getN (sR 5).nodes e.1 = none) →
      (recordVotes pr20 (sR 5) [(1, 16), (7, 3)]).2 = sR 5) ∧
    ((∀ e ∈ [((1 : Nat), (16 : Nat)), (7, 3)],
        (getN (sR 5).nodes e.1).isSome) →
      (recordVotes pr20 (sR 5) [(1, 16), (7, 3)]).1 = none ∧
      recordVotes pr20 (sR 5) [(1, 16), (7, 3)] =
        recordVotes pr20 (sR 5) ([(1, 16), (7, 3)].filter
          (fun e => isProcessingB (sR 5) e.1)))) :=
  C7_unknown_candidate pr20 (sR 5) [(1, 16), (7, 3)] (reach_sR 5)

end Gecko
